import Mathlib

/-!
Verification development for the tamachi content store (db.ts, db-v1.sql, audio.ts).

The development shallowly embeds:
- the ordering-key allocator (the `base62.mudder` call; the mudder package is an
  external dependency whose code is not in this repository, so the allocator is
  modelled from the specification's contract over base-62 digit strings compared
  lexicographically);
- the relational store (tables `sentence`, `story`, `linkstorysentence`, `audio`
  as lists of rows with id counters and the schema's uniqueness constraints);
- the operations `getOrCreateStory`, `addSentences`, `getSentence` and
  `addAudio` of db.ts, including JavaScript `Array.splice` semantics and the
  `insert or ignore` / constraint-catching behaviour of better-sqlite3.
-/

/-! ### Ordering keys: base-62 digit strings compared lexicographically -/

/-- Ordering key: the list of base-62 digit values of the key string.  The
character order of mudder's base62 alphabet agrees with code-unit order, and
SQLite `ORDER BY` on these TEXT columns is plain byte order, so lexicographic
comparison of digit lists is the faithful model of both. -/
abbrev Key := List Nat

/-- Strict lexicographic order on keys, matching JS string `<` and SQLite
`ORDER BY` for base-62 strings. -/
def keyLt (a b : Key) : Prop := List.Lex (· < ·) a b

instance (a b : Key) : Decidable (keyLt a b) := List.Lex.decidableRel (· < ·) a b

theorem keyLt_trans : ∀ {a b c : Key}, keyLt a b → keyLt b c → keyLt a c := by
  intro a b c h1 h2
  induction h2 generalizing a with
  | nil => cases h1
  | cons h ih =>
    cases h1 with
    | nil => exact List.Lex.nil
    | cons h1 => exact List.Lex.cons (ih h1)
    | rel hr => exact List.Lex.rel hr
  | rel hr =>
    cases h1 with
    | nil => exact List.Lex.nil
    | cons h1 => exact List.Lex.rel hr
    | rel hr1 => exact List.Lex.rel (Nat.lt_trans hr1 hr)

instance : IsTrans Key keyLt := ⟨fun _ _ _ => keyLt_trans⟩

theorem keyLt_asymm : ∀ {a b : Key}, keyLt a b → ¬ keyLt b a := by
  intro a b h
  exact (List.Lex.isAsymm (α := Nat) (· < ·)).asymm a b h

theorem keyLt_irrefl (a : Key) : ¬ keyLt a a := by
  intro h; exact keyLt_asymm h h

theorem keyLt_trichotomy (a b : Key) : keyLt a b ∨ a = b ∨ keyLt b a :=
  (List.Lex.isTrichotomous (α := Nat) (· < ·)).trichotomous a b

theorem keyLt_ne {a b : Key} (h : keyLt a b) : a ≠ b := by
  rintro rfl; exact keyLt_irrefl a h

/-- A proper extension of a key is lexicographically greater. -/
theorem keyLt_append (l : Key) {t : Key} (ht : t ≠ []) : keyLt l (l ++ t) := by
  induction l with
  | nil =>
    cases t with
    | nil => exact absurd rfl ht
    | cons a s => exact List.Lex.nil
  | cons a s ih => exact List.Lex.cons ih

/-- Last digit of the key is not the zero digit (vacuously true for the empty
bound).  Keys ending in the zero digit are the only right bounds with no room
below them, and the modelled allocator never produces one. -/
def rok (k : Key) : Prop := k.getLast? ≠ some 0

instance (k : Key) : Decidable (rok k) := by unfold rok; infer_instance

/-- All digits are valid base-62 digits. -/
def KeyOk (k : Key) : Prop := ∀ d ∈ k, d < 62

instance (k : Key) : Decidable (KeyOk k) := by unfold KeyOk; infer_instance

/-- Strictly below the right bound, where the empty key denotes an open (absent)
right bound. -/
def below (k r : Key) : Prop := r = [] ∨ keyLt k r

instance (k r : Key) : Decidable (below k r) := by unfold below; infer_instance

/-! ### The allocator, modelled from the spec.

Modelled from the spec: the repository calls `base62.mudder(left, right, n)`
from the external mudder package (not part of this repository's sources).
Contract (spec section 4.1): given a left bound key (or the empty string,
meaning no left neighbor) and a right bound key (or the empty string, meaning no
right neighbor), produce `n` new keys that lexicographically sort strictly
between the bounds and are themselves mutually ordered, without requiring any
existing key to change.  `mid` produces one key strictly between the bounds;
`mudderKeys` iterates it. -/

/-- One fresh key strictly between `l` and `r` (empty `r` meaning an open right
bound; the empty list is the lexicographic bottom, so no convention is needed
for `l`).  Digit 31 is the middle of the base-62 digit range. -/
def mid : Key → Key → Key
  | l, [] => l ++ [31]
  | [], d :: t =>
    if d = 0 then 0 :: mid [] t
    else if d = 1 then [0, 31]
    else [d - 1]
  | a :: s, d :: t =>
    if a = d then a :: mid s t
    else if d = a + 1 then a :: (s ++ [31])
    else [a + 1]

/-- The `n` keys the allocator returns for bounds `l < r`, in order. -/
def mudderKeys (l r : Key) : Nat → List Key
  | 0 => []
  | n + 1 => mid l r :: mudderKeys (mid l r) r n

theorem mudderKeys_length (l r : Key) (n : Nat) : (mudderKeys l r n).length = n := by
  induction n generalizing l with
  | zero => rfl
  | succ n ih => simp [mudderKeys, ih]

theorem rok_concat (l : Key) (d : Nat) (hd : d ≠ 0) : rok (l ++ [d]) := by
  unfold rok
  rw [List.getLast?_concat]
  simp [hd]

theorem rok_cons (a : Nat) : ∀ {l : Key}, l ≠ [] → rok l → rok (a :: l) := by
  intro l hl h
  cases l with
  | nil => exact absurd rfl hl
  | cons b u =>
    unfold rok at h ⊢
    rwa [List.getLast?_cons_cons]

/-- Correctness of `mid`: for a right bound that is open or does not end in the
zero digit, the produced key lies strictly between the bounds, is nonempty, is
again a usable right bound, and stays inside base 62. -/
theorem mid_spec : ∀ (r l : Key), rok r → below l r →
    keyLt l (mid l r) ∧ below (mid l r) r ∧ rok (mid l r) ∧ mid l r ≠ [] ∧
      (KeyOk l → KeyOk r → KeyOk (mid l r)) := by
  intro r
  induction r with
  | nil =>
    intro l _ _
    have hm : mid l [] = l ++ [31] := by simp [mid]
    rw [hm]
    refine ⟨keyLt_append l (by simp), Or.inl rfl, rok_concat l 31 (by decide), by simp, ?_⟩
    intro hl _
    intro d hd
    rcases List.mem_append.1 hd with h | h
    · exact hl d h
    · simp at h; omega
  | cons d t ih =>
    intro l hrok hbl
    have hblr : keyLt l (d :: t) := by
      rcases hbl with h | h
      · exact absurd h (by simp)
      · exact h
    match l with
    | [] =>
      by_cases hd0 : d = 0
      · subst hd0
        -- right bound starts with the zero digit; recurse into the tail
        have ht : t ≠ [] := by
          intro h; subst h; exact hrok rfl
        have hrt : rok t := by
          unfold rok at hrok ⊢
          cases t with
          | nil => simp
          | cons x u => simpa using hrok
        have hbt : below ([] : Key) t := by
          cases t with
          | nil => exact absurd rfl ht
          | cons x u => exact Or.inr List.Lex.nil
        obtain ⟨h1, h2, h3, h4, h5⟩ := ih [] hrt hbt
        have hmid : mid [] (0 :: t) = 0 :: mid [] t := by simp [mid]
        rw [hmid]
        refine ⟨List.Lex.nil, ?_, ?_, by simp, ?_⟩
        · refine Or.inr (List.Lex.cons ?_)
          rcases h2 with h | h
          · exact absurd h ht
          · exact h
        · exact rok_cons 0 h4 h3
        · intro _ hr
          intro e he
          rcases List.mem_cons.1 he with h | h
          · subst h; omega
          · exact h5 (by intro x hx; cases hx) (fun x hx => hr x (List.mem_cons_of_mem _ hx)) e h
      · by_cases hd1 : d = 1
        · subst hd1
          have hmid : mid [] (1 :: t) = [0, 31] := by simp [mid]
          rw [hmid]
          refine ⟨List.Lex.nil, Or.inr (List.Lex.rel (by decide)), by decide, by simp, ?_⟩
          intro _ _ e he
          simp at he
          omega
        · have hmid : mid [] (d :: t) = [d - 1] := by simp [mid, hd0, hd1]
          rw [hmid]
          refine ⟨List.Lex.nil, Or.inr (List.Lex.rel (by omega)), ?_, by simp, ?_⟩
          · unfold rok; simp; omega
          · intro _ hr e he
            simp at he
            have := hr d (by simp)
            omega
    | a :: s =>
      by_cases had : a = d
      · subst had
        -- equal heads: recurse on the tails
        have hst : keyLt s t := by
          cases hblr with
          | cons h => exact h
          | rel h => omega
        have ht : t ≠ [] := by
          intro h; subst h; cases hst
        have hrt : rok t := by
          unfold rok at hrok ⊢
          cases t with
          | nil => simp
          | cons x u => simpa using hrok
        obtain ⟨h1, h2, h3, h4, h5⟩ := ih s hrt (Or.inr hst)
        have hmid : mid (a :: s) (a :: t) = a :: mid s t := by simp [mid]
        rw [hmid]
        refine ⟨List.Lex.cons h1, ?_, ?_, by simp, ?_⟩
        · refine Or.inr (List.Lex.cons ?_)
          rcases h2 with h | h
          · exact absurd h ht
          · exact h
        · exact rok_cons a h4 h3
        · intro hl hr e he
          rcases List.mem_cons.1 he with h | h
          · subst h; exact hl e (by simp)
          · exact h5 (fun x hx => hl x (List.mem_cons_of_mem _ hx))
              (fun x hx => hr x (List.mem_cons_of_mem _ hx)) e h
      · have hlt : a < d := by
          cases hblr with
          | cons h => exact absurd rfl had
          | rel h => exact h
        by_cases hd : d = a + 1
        · subst hd
          have hmid : mid (a :: s) ((a + 1) :: t) = a :: (s ++ [31]) := by
            simp [mid, had]
          rw [hmid]
          refine ⟨List.Lex.cons (keyLt_append s (by simp)),
            Or.inr (List.Lex.rel (by omega)), ?_, by simp, ?_⟩
          · exact rok_cons a (by simp) (rok_concat s 31 (by decide))
          · intro hl _ e he
            rcases List.mem_cons.1 he with h | h
            · subst h; exact hl e (by simp)
            · rcases List.mem_append.1 h with h | h
              · exact hl e (List.mem_cons_of_mem _ h)
              · simp at h; omega
        · have hmid : mid (a :: s) (d :: t) = [a + 1] := by simp [mid, had, hd]
          rw [hmid]
          refine ⟨List.Lex.rel (by omega), Or.inr (List.Lex.rel (by omega)), ?_, by simp, ?_⟩
          · unfold rok; simp
          · intro _ hr e he
            simp at he
            have := hr d (by simp)
            omega

/-- Correctness of the allocator: for a right bound that is open or does not end
in the zero digit, the `n` produced keys form a strictly increasing chain above
the left bound, sort strictly below the right bound, and are themselves usable
future bounds. -/
theorem mudderKeys_spec (n : Nat) : ∀ (l r : Key), rok r → below l r →
    List.Chain keyLt l (mudderKeys l r n) ∧
      (∀ k ∈ mudderKeys l r n, below k r ∧ rok k ∧ k ≠ [] ∧
        (KeyOk l → KeyOk r → KeyOk k)) := by
  induction n with
  | zero => intro l r _ _; exact ⟨List.Chain.nil, by simp [mudderKeys]⟩
  | succ n ih =>
    intro l r hrok hbl
    obtain ⟨h1, h2, h3, h4, h5⟩ := mid_spec r l hrok hbl
    obtain ⟨hc, hmem⟩ := ih (mid l r) r hrok h2
    constructor
    · exact List.Chain.cons h1 hc
    · intro k hk
      rcases List.mem_cons.1 hk with h | h
      · subst h; exact ⟨h2, h3, h4, fun hl hr => h5 hl hr⟩
      · obtain ⟨g1, g2, g3, g4⟩ := hmem k h
        exact ⟨g1, g2, g3, fun hl hr => g4 (h5 hl hr) hr⟩

/-! ### Data model: words, serialization, rows, database state (db.ts, db-v1.sql) -/

/-- Source-language word: a plain token or a ruby/pronunciation pair
(interfaces `i.Word`). -/
inductive Word where
  | plain (s : String)
  | ruby (ruby rt : String)
deriving DecidableEq

/-- Serialized word as persisted inside the sentence row's `ja` column: a plain
token serializes as itself, a ruby pair as a two-element array
(`serialize` in db.ts; the JSON string encoding is injective on these values, so
the row stores the serialized values themselves). -/
inductive SerW where
  | sstr (s : String)
  | spair (a b : String)
deriving DecidableEq

/-- The `serialize` helper of db.ts. -/
def serialize : Word → SerW
  | .plain s => .sstr s
  | .ruby r t => .spair r t

/-- The `deserialize` helper of db.ts. -/
def deserialize : SerW → Word
  | .sstr s => .plain s
  | .spair a b => .ruby a b

theorem deserialize_serialize (w : Word) : deserialize (serialize w) = w := by
  cases w <;> rfl

theorem serialize_deserialize (v : SerW) : serialize (deserialize v) = v := by
  cases v <;> rfl

/-- The `sentenceToPlainJapanese` helper of db.ts: concatenate each word's
display text. -/
def sentenceToPlainJapanese (ws : List Word) : String :=
  String.join (ws.map fun w => match w with | .plain s => s | .ruby r _ => r)

/-- In-memory sentence (interfaces `i.Sentence`; the audio attachments are
modelled separately in the audio section, and the transient `id = -1`
placeholder of addSentences is never observable because the loop overwrites it
with the resolved id before returning). -/
structure Sent where
  id : Nat
  ja : List Word
  jaHint : String
  en : String
deriving DecidableEq

/-- One input line of `addSentences` (`JaEn` in db.ts). -/
structure Line where
  ja : List Word
  jaHint : String
  en : String
deriving DecidableEq

/-- Row of the `sentence` table (unique on `(ja, en)`). -/
structure SentenceRow where
  id : Nat
  ja : List SerW
  jaHint : String
  en : String
deriving DecidableEq

/-- Row of the `story` table (unique `title`). -/
structure StoryRow where
  id : Nat
  title : String
deriving DecidableEq

/-- Row of the `linkstorysentence` table. -/
structure LinkRow where
  id : Nat
  sentenceId : Nat
  storyId : Nat
  idx : Key
deriving DecidableEq

/-- The relational store state for the sentence/story/link tables.  Rows are
kept in insertion (rowid) order; the `next...` counters model SQLite's
`INTEGER PRIMARY KEY` assignment and `lastInsertRowid`. -/
structure DB where
  sentences : List SentenceRow
  stories : List StoryRow
  links : List LinkRow
  nextSid : Nat
  nextStoryId : Nat
  nextLinkId : Nat
deriving DecidableEq

/-- In-memory story (interfaces `i.Story`): the sentence array plus the hidden
`_meta.lexIdxs` ordering keys. -/
structure StoryM where
  id : Nat
  title : String
  sentences : List Sent
  lexIdxs : List Key
deriving DecidableEq

/-! ### JavaScript array semantics used by addSentences -/

/-- The start position `Array.prototype.splice` actually uses: a negative start
counts from the end (clamped at 0), a nonnegative start is clamped to the
length. -/
def jsNormStart (len : Nat) (start : Int) : Nat :=
  if start < 0 then ((len : Int) + start).toNat else min start.toNat len

/-- JavaScript `xs.splice(start, deleteCount, ...items)`: returns the updated
array and the removed elements. -/
def jsSplice (xs : List α) (start : Int) (dc : Nat) (items : List α) :
    List α × List α :=
  let s := jsNormStart xs.length start
  let d := min dc (xs.length - s)
  (xs.take s ++ items ++ xs.drop (s + d), (xs.drop s).take d)

/-- JavaScript `xs[i] || ''` on the key array: negative or out-of-range indices
give `undefined`, which `|| ''` turns into the empty string. -/
def idxOrEmpty (xs : List Key) (i : Int) : Key :=
  if i < 0 then [] else xs.getD i.toNat []

/-! ### Primitive store writes

`addSentences` issues its writes one prepared statement at a time, with no
surrounding transaction; modelling each write as an explicit operation lets the
atomicity claims quantify over failure points between writes. -/

/-- One primitive write against the store. -/
inductive DbOp where
  | insSentence (r : SentenceRow)
  | insLink (r : LinkRow)
  | delLink (storyId sentenceId : Nat) (idx : Key)
deriving DecidableEq

/-- Execute one primitive write.  `delLink` mirrors
`delete from linkstorysentence where storyId=$ and sentenceId=$ and idx=$`,
which removes every matching row. -/
def applyOp (db : DB) : DbOp → DB
  | .insSentence r =>
    { db with sentences := db.sentences ++ [r], nextSid := r.id + 1 }
  | .insLink r =>
    { db with links := db.links ++ [r], nextLinkId := r.id + 1 }
  | .delLink st sid k =>
    { db with links :=
        db.links.filter fun l =>
          decide (¬ (l.storyId = st ∧ l.sentenceId = sid ∧ l.idx = k)) }

/-- Execute a sequence of primitive writes in order. -/
def applyOps (db : DB) (ops : List DbOp) : DB := ops.foldl applyOp db

/-! ### The content resolver (the dedup block inside addSentences) -/

/-- Rows of the sentence table whose `(ja, en)` unique key matches. -/
def findSentence (db : DB) (jaS : List SerW) (en : String) : Option SentenceRow :=
  db.sentences.find? fun r => decide (r.ja = jaS ∧ r.en = en)

/-- The content resolver extracted from the body of `addSentences`
(db.ts lines: `insert or ignore into sentence ...` followed on conflict by
`select id from sentence where ja=$ja and en=$en`): returns the stable id, the
updated store, and whether this was a first-time insert (`res.changes` nonzero).
The `sentence failed to insert and select?` throw is unreachable in the
single-process model because the ignored insert and the fallback lookup test the
same predicate on the same state. -/
def resolveSentence (db : DB) (jaS : List SerW) (hint en : String) :
    Nat × DB × Bool :=
  match findSentence db jaS en with
  | some r => (r.id, db, false)
  | none =>
    (db.nextSid,
      applyOp db (.insSentence ⟨db.nextSid, jaS, hint, en⟩),
      true)

/-! ### getOrCreateStory / materialization (db.ts) -/

/-- Story-table lookup by unique title. -/
def findStory (db : DB) (title : String) : Option StoryRow :=
  db.stories.find? fun r => decide (r.title = title)

/-- Links of one story, in rowid order. -/
def storyLinks (db : DB) (storyId : Nat) : List LinkRow :=
  db.links.filter fun l => decide (l.storyId = storyId)

/-- Nonstrict key order, used to model SQLite `ORDER BY idx`. -/
def keyLe (a b : Key) : Prop := keyLt a b ∨ a = b

instance (a b : Key) : Decidable (keyLe a b) := by unfold keyLe; infer_instance

theorem keyLe_trans {a b c : Key} (h1 : keyLe a b) (h2 : keyLe b c) : keyLe a c := by
  rcases h1 with h1 | rfl
  · rcases h2 with h2 | rfl
    · exact Or.inl (keyLt_trans h1 h2)
    · exact Or.inl h1
  · exact h2

theorem keyLe_total (a b : Key) : keyLe a b ∨ keyLe b a := by
  rcases keyLt_trichotomy a b with h | h | h
  · exact Or.inl (Or.inl h)
  · exact Or.inl (Or.inr h)
  · exact Or.inr (Or.inl h)

/-- Link-row comparison by ordering key (the `order by idx` of the story read
path). -/
def linkLe (a b : LinkRow) : Prop := keyLe a.idx b.idx

instance : DecidableRel linkLe := fun a b => by unfold linkLe; infer_instance

instance : IsTotal LinkRow linkLe := ⟨fun a b => keyLe_total a.idx b.idx⟩

instance : IsTrans LinkRow linkLe := ⟨fun _ _ _ => keyLe_trans⟩

/-- SQLite `select * from linkstorysentence where storyId=? order by idx`. -/
def sortLinks (ls : List LinkRow) : List LinkRow := ls.insertionSort linkLe

/-- The `getSentence` read of db.ts: look up a sentence row by id and
deserialize its word array (the audio attachments are modelled separately). -/
def getSentence (db : DB) (sentenceId : Nat) : Option Sent :=
  (db.sentences.find? fun r => decide (r.id = sentenceId)).map fun r =>
    ⟨r.id, r.ja.map deserialize, r.jaHint, r.en⟩

/-- Option-valued map, modelling the read loop that throws on the first
missing row. -/
def mapOpt (f : α → Option β) : List α → Option (List β)
  | [] => some []
  | a :: l => do
    let b ← f a
    let bs ← mapOpt f l
    pure (b :: bs)

/-- The `getOrCreateStory` of db.ts.  If the title exists, materialize the
story: links ordered by key, each joined to its sentence row (`none` models the
`story refers to nonexistent sentenceId` throw).  Otherwise insert a fresh story
row and return the empty story.  The unique-constraint catch (`race condition?
retry`) is unreachable in the single-process model because the insert only runs
when the title is absent. -/
def getOrCreateStory (db : DB) (title : String) : Option (DB × StoryM) :=
  match findStory db title with
  | some srow => do
    let ls := sortLinks (storyLinks db srow.id)
    let sents ← mapOpt (fun l => getSentence db l.sentenceId) ls
    pure (db, ⟨srow.id, srow.title, sents, ls.map (·.idx)⟩)
  | none =>
    some
      ({ db with stories := db.stories ++ [⟨db.nextStoryId, title⟩],
                 nextStoryId := db.nextStoryId + 1 },
        ⟨db.nextStoryId, title, [], []⟩)

/-! ### addSentences (splice) -/

/-- The per-line loop of `addSentences`: resolve each line's content id (insert
or ignore, then select on conflict), then insert the link carrying the
allocated key for that position.  Returns the updated store, the resolved
in-memory sentences, the indices that were first-time inserts
(`sentenceIdxNeedingAudio`), and the primitive writes issued. -/
def resolveLoop (storyId : Nat) (newIdxs : List Key) :
    DB → List Line → Nat → DB × List Sent × List Nat × List DbOp
  | db, [], _ => (db, [], [], [])
  | db, line :: rest, i =>
    let jaS := line.ja.map serialize
    let hint := sentenceToPlainJapanese line.ja
    let res := resolveSentence db jaS hint line.en
    let sid := res.1
    let db1 := res.2.1
    let isNew := res.2.2
    let link : LinkRow := ⟨db1.nextLinkId, sid, storyId, newIdxs.getD i []⟩
    let db2 := applyOp db1 (.insLink link)
    let rec2 := resolveLoop storyId newIdxs db2 rest (i + 1)
    (rec2.1,
      ⟨sid, line.ja, line.jaHint, line.en⟩ :: rec2.2.1,
      (if isNew then [i] else []) ++ rec2.2.2.1,
      (if isNew then [DbOp.insSentence ⟨sid, jaS, hint, line.en⟩] else [])
        ++ [DbOp.insLink link] ++ rec2.2.2.2)

/-- The link-deletion loop at the end of `addSentences`: the removed position
`i` is deleted by story id, the removed sentence's id and `deletedIdxs[i]`
(positional pairing, consumed head first).  (The source guards the loop with
`if (deleteCount > 0)`, which only skips an empty loop.) -/
def delOps (storyId : Nat) : List Sent → List Key → List DbOp
  | [], _ => []
  | s :: rest, ks => .delLink storyId s.id (ks.headD []) :: delOps storyId rest ks.tail

/-- Everything one `addSentences` call produces: the mutated story object, the
updated store, the `sentenceIdxNeedingAudio` work list (indices of first-time
inserts), the freshly allocated keys, and the primitive writes in order. -/
structure SpliceOut where
  db : DB
  story : StoryM
  needingAudio : List Nat
  newIdxs : List Key
  ops : List DbOp
deriving DecidableEq

/-- The `addSentences` of db.ts, step for step: clamp `startIdx` from above
only; splice the in-memory sentence array; read the two bound keys at positions
`startIdx - 1` and `startIdx` of the old key array (empty string when absent);
allocate `lines.length` keys; splice the key array; resolve and link each new
sentence against the store; delete the links of the removed range.  The only
throw in the body (`sentence failed to insert and select?`) is unreachable, so
the model is total. -/
def addSentences (db : DB) (st : StoryM) (startIdx : Int) (deleteCount : Nat)
    (lines : List Line) : SpliceOut :=
  let len := st.sentences.length
  let start := min startIdx (len : Int)
  let leftIdx := idxOrEmpty st.lexIdxs (start - 1)
  let rightIdx := idxOrEmpty st.lexIdxs start
  let newIdxs := mudderKeys leftIdx rightIdx lines.length
  let lexSplice := jsSplice st.lexIdxs start deleteCount newIdxs
  let res := resolveLoop st.id newIdxs db lines 0
  let sentSplice := jsSplice st.sentences start deleteCount res.2.1
  let dops := delOps st.id sentSplice.2 lexSplice.2
  { db := applyOps res.1 dops,
    story := ⟨st.id, st.title, sentSplice.1, lexSplice.1⟩,
    needingAudio := res.2.2.1,
    newIdxs := newIdxs,
    ops := res.2.2.2 ++ dops }

/-! ### Content projections and basic loop lemmas -/

/-- Content of an in-memory sentence, forgetting the store-assigned id. -/
def sentContent (s : Sent) : List Word × String × String := (s.ja, s.jaHint, s.en)

/-- Content of an input line. -/
def lineContent (l : Line) : List Word × String × String := (l.ja, l.jaHint, l.en)

theorem resolveLoop_sents (storyId : Nat) (idxs : List Key) :
    ∀ (lines : List Line) (db : DB) (i : Nat),
      ((resolveLoop storyId idxs db lines i).2.1).map sentContent =
        lines.map lineContent := by
  intro lines
  induction lines with
  | nil => intro db i; rfl
  | cons line rest ih =>
    intro db i
    simp only [resolveLoop, List.map_cons]
    rw [ih]
    rfl

theorem resolveLoop_sents_length (storyId : Nat) (idxs : List Key)
    (lines : List Line) (db : DB) (i : Nat) :
    ((resolveLoop storyId idxs db lines i).2.1).length = lines.length := by
  have h := resolveLoop_sents storyId idxs lines db i
  have := congrArg List.length h
  simpa using this

theorem applyOps_append (db : DB) (a b : List DbOp) :
    applyOps db (a ++ b) = applyOps (applyOps db a) b := by
  simp [applyOps, List.foldl_append]

/-- C10: `addSentences` clamps `startIdx` only from above.  For every negative
`startIdx` the value reaches `Array.splice` unclamped, so both in-memory arrays
are spliced at the position `max(length + startIdx, 0)` counted from the end,
while the two ordering-key bounds are read at positions `startIdx - 1` and
`startIdx`, which are negative, resolve to the empty string, and make the
allocator interpolate over the whole key space instead of between the actual
neighbors of the insertion position. -/
theorem C10_negative_startIdx (db : DB) (st : StoryM) (startIdx : Int)
    (dc : Nat) (lines : List Line) (hneg : startIdx < 0) :
    min startIdx (st.sentences.length : Int) = startIdx ∧
    idxOrEmpty st.lexIdxs (startIdx - 1) = [] ∧
    idxOrEmpty st.lexIdxs startIdx = [] ∧
    (addSentences db st startIdx dc lines).newIdxs =
      mudderKeys [] [] lines.length ∧
    (addSentences db st startIdx dc lines).story.lexIdxs =
      (st.lexIdxs.take (((st.lexIdxs.length : Int) + startIdx).toNat) ++
        mudderKeys [] [] lines.length ++
        st.lexIdxs.drop ((((st.lexIdxs.length : Int) + startIdx).toNat) +
          min dc (st.lexIdxs.length - ((st.lexIdxs.length : Int) + startIdx).toNat))) ∧
    (addSentences db st startIdx dc lines).story.sentences.map sentContent =
      ((st.sentences.take (((st.sentences.length : Int) + startIdx).toNat)).map sentContent ++
        lines.map lineContent ++
        (st.sentences.drop ((((st.sentences.length : Int) + startIdx).toNat) +
          min dc (st.sentences.length - ((st.sentences.length : Int) + startIdx).toNat))).map sentContent) := by
  have hmin : min startIdx (st.sentences.length : Int) = startIdx :=
    min_eq_left (by omega)
  have hleft : idxOrEmpty st.lexIdxs (startIdx - 1) = [] := by
    unfold idxOrEmpty
    rw [if_pos (by omega)]
  have hright : idxOrEmpty st.lexIdxs startIdx = [] := by
    unfold idxOrEmpty
    rw [if_pos (by omega)]
  refine ⟨hmin, hleft, hright, ?_, ?_, ?_⟩
  · simp only [addSentences, hmin, hleft, hright]
  · simp only [addSentences, hmin, hleft, hright, jsSplice, jsNormStart,
      if_pos hneg]
  · simp only [addSentences, hmin, jsSplice, jsNormStart, if_pos hneg]
    simp only [List.map_append]
    rw [resolveLoop_sents]

/-- Witness for C10 at a concrete negative start index. -/
theorem C10_negative_startIdx_witness :
    ((-2 : Int) < 0) ∧
    (min (-2 : Int) ((([⟨7, [Word.plain "a"], "a", "a"⟩,
        ⟨8, [Word.plain "b"], "b", "b"⟩] : List Sent).length : Int)) = -2 ∧
      idxOrEmpty [[30], [40]] ((-2 : Int) - 1) = [] ∧
      idxOrEmpty [[30], [40]] (-2 : Int) = [] ∧
      (addSentences ⟨[], [], [], 1, 1, 1⟩
          ⟨1, "S", [⟨7, [Word.plain "a"], "a", "a"⟩, ⟨8, [Word.plain "b"], "b", "b"⟩],
            [[30], [40]]⟩ (-2) 0 [⟨[Word.plain "c"], "c", "c"⟩]).newIdxs =
        mudderKeys [] [] 1 ∧
      (addSentences ⟨[], [], [], 1, 1, 1⟩
          ⟨1, "S", [⟨7, [Word.plain "a"], "a", "a"⟩, ⟨8, [Word.plain "b"], "b", "b"⟩],
            [[30], [40]]⟩ (-2) 0 [⟨[Word.plain "c"], "c", "c"⟩]).story.lexIdxs =
        (([[30], [40]] : List Key).take ((((([[30], [40]] : List Key).length : Int) + -2)).toNat) ++
          mudderKeys [] [] 1 ++
          ([[30], [40]] : List Key).drop (((((([[30], [40]] : List Key).length : Int) + -2)).toNat) +
            min 0 (([[30], [40]] : List Key).length - ((((([[30], [40]] : List Key).length : Int) + -2)).toNat)))) ∧
      (addSentences ⟨[], [], [], 1, 1, 1⟩
          ⟨1, "S", [⟨7, [Word.plain "a"], "a", "a"⟩, ⟨8, [Word.plain "b"], "b", "b"⟩],
            [[30], [40]]⟩ (-2) 0 [⟨[Word.plain "c"], "c", "c"⟩]).story.sentences.map sentContent =
        ((([⟨7, [Word.plain "a"], "a", "a"⟩, ⟨8, [Word.plain "b"], "b", "b"⟩] : List Sent).take
            ((((([⟨7, [Word.plain "a"], "a", "a"⟩, ⟨8, [Word.plain "b"], "b", "b"⟩] : List Sent).length : Int) + -2)).toNat)).map sentContent ++
          ([⟨[Word.plain "c"], "c", "c"⟩] : List Line).map lineContent ++
          (([⟨7, [Word.plain "a"], "a", "a"⟩, ⟨8, [Word.plain "b"], "b", "b"⟩] : List Sent).drop
            (((((([⟨7, [Word.plain "a"], "a", "a"⟩, ⟨8, [Word.plain "b"], "b", "b"⟩] : List Sent).length : Int) + -2)).toNat) +
              min 0 (([⟨7, [Word.plain "a"], "a", "a"⟩, ⟨8, [Word.plain "b"], "b", "b"⟩] : List Sent).length -
                ((((([⟨7, [Word.plain "a"], "a", "a"⟩, ⟨8, [Word.plain "b"], "b", "b"⟩] : List Sent).length : Int) + -2)).toNat)))).map sentContent)) :=
  ⟨by decide,
    C10_negative_startIdx ⟨[], [], [], 1, 1, 1⟩
      ⟨1, "S", [⟨7, [Word.plain "a"], "a", "a"⟩, ⟨8, [Word.plain "b"], "b", "b"⟩],
        [[30], [40]]⟩ (-2) 0 [⟨[Word.plain "c"], "c", "c"⟩] (by decide)⟩

theorem jsSplice_fst (xs : List α) (start : Int) (dc : Nat) (items : List α) :
    (jsSplice xs start dc items).1 =
      xs.take (jsNormStart xs.length start) ++ items ++
        xs.drop (jsNormStart xs.length start +
          min dc (xs.length - jsNormStart xs.length start)) := rfl

theorem jsNormStart_natCast (len : Nat) (s : Nat) :
    jsNormStart len (s : Int) = min s len := by
  unfold jsNormStart
  rw [if_neg (by omega)]
  simp

/-- C7: `addSentences` mirrors array-splice clamping.  First part: a start
index greater than the current sentence count appends the new sentences at the
end (and being total, the model raises no error).  Second part: a delete count
at least the number of sentences remaining after the start position removes
exactly the sentences from that position through the end. -/
theorem C7_splice_clamping :
    (∀ (db : DB) (st : StoryM) (startIdx : Int) (dc : Nat) (lines : List Line),
        (st.sentences.length : Int) < startIdx →
        (addSentences db st startIdx dc lines).story.sentences.map sentContent =
          st.sentences.map sentContent ++ lines.map lineContent) ∧
    (∀ (db : DB) (st : StoryM) (s : Nat) (dc : Nat) (lines : List Line),
        s ≤ st.sentences.length → st.sentences.length - s ≤ dc →
        ((addSentences db st (s : Int) dc lines).story.sentences.map sentContent =
          (st.sentences.take s).map sentContent ++ lines.map lineContent ∧
        ∀ (items : List Sent),
          (jsSplice st.sentences (s : Int) dc items).2 = st.sentences.drop s)) := by
  constructor
  · intro db st startIdx dc lines h
    have hmin : min startIdx (st.sentences.length : Int) =
        (st.sentences.length : Int) := min_eq_right (le_of_lt h)
    simp only [addSentences, hmin, jsSplice_fst, jsNormStart_natCast,
      Nat.min_self]
    rw [List.take_length, Nat.sub_self, Nat.min_zero, Nat.add_zero,
      List.drop_length]
    simp [resolveLoop_sents]
  · intro db st s dc lines hs hdc
    have hmin : min ((s : Int)) (st.sentences.length : Int) = (s : Int) :=
      min_eq_left (by omega)
    constructor
    · simp only [addSentences, hmin, jsSplice_fst, jsNormStart_natCast,
        Nat.min_eq_left hs]
      have hd : min dc (st.sentences.length - s) = st.sentences.length - s :=
        Nat.min_eq_right hdc
      rw [hd]
      have hdrop : st.sentences.drop (s + (st.sentences.length - s)) = [] := by
        rw [List.drop_eq_nil_iff]
        omega
      rw [hdrop]
      simp [resolveLoop_sents]
    · intro items
      simp only [jsSplice, jsNormStart_natCast, Nat.min_eq_left hs]
      have hd : min dc (st.sentences.length - s) = st.sentences.length - s :=
        Nat.min_eq_right hdc
      rw [hd]
      apply List.take_of_length_le
      simp

/-! ### Concrete states used by witnesses and counterexamples -/

/-- The freshly bootstrapped store. -/
def emptyDB : DB := ⟨[], [], [], 1, 1, 1⟩

/-- One-token sentence value. -/
def wSent (n : Nat) (s : String) : Sent := ⟨n, [Word.plain s], s, s⟩

/-- One-token input line whose jaHint agrees with its source text. -/
def wLine (s : String) : Line := ⟨[Word.plain s], s, s⟩

/-- A two-sentence story in a consistent state. -/
def wSt2 : StoryM := ⟨1, "S", [wSent 7 "a", wSent 8 "b"], [[30], [40]]⟩

/-- Witness for C7 at the spec's own scenarios: insertion at 99999 appends, and
deleteCount 100 at position length-1 removes exactly the final sentence. -/
theorem C7_splice_clamping_witness :
    (((wSt2.sentences.length : Int) < 99999) ∧
      (addSentences emptyDB wSt2 99999 0 [wLine "c"]).story.sentences.map sentContent =
        wSt2.sentences.map sentContent ++ ([wLine "c"]).map lineContent) ∧
    (1 ≤ wSt2.sentences.length ∧ wSt2.sentences.length - 1 ≤ 100 ∧
      (addSentences emptyDB wSt2 ((1 : Nat) : Int) 100 []).story.sentences.map sentContent =
        (wSt2.sentences.take 1).map sentContent ++ ([] : List Line).map lineContent ∧
      (jsSplice wSt2.sentences ((1 : Nat) : Int) 100 ([] : List Sent)).2 =
        wSt2.sentences.drop 1) :=
  ⟨⟨by decide, C7_splice_clamping.1 emptyDB wSt2 99999 0 [wLine "c"] (by decide)⟩,
    by decide, by decide,
    (C7_splice_clamping.2 emptyDB wSt2 1 100 [] (by decide) (by decide)).1,
    (C7_splice_clamping.2 emptyDB wSt2 1 100 [] (by decide) (by decide)).2 []⟩

/-! ### C3: the audio work list -/

/-- Dedup key of an input line: the serialized source words and the
translation, matching the sentence table's unique constraint. -/
def lineKey (l : Line) : List SerW × String := (l.ja.map serialize, l.en)

/-- Resolver lookup for one line. -/
def findLine (db : DB) (l : Line) : Option SentenceRow :=
  findSentence db (l.ja.map serialize) l.en

/-- Index `i` of `lines` is net-new content with respect to `db`: the line
exists, no sentence row with its dedup key is in the store, and no earlier line
shares its dedup key. -/
def isNetNew (db : DB) (lines : List Line) (i : Nat) : Prop :=
  ∃ l, lines.get? i = some l ∧ findLine db l = none ∧
    ∀ j, j < i → ∀ l2, lines.get? j = some l2 → lineKey l2 ≠ lineKey l

theorem findLine_congr (db : DB) {a b : Line} (h : lineKey a = lineKey b) :
    findLine db a = findLine db b := by
  unfold findLine findSentence
  have h1 : a.ja.map serialize = b.ja.map serialize := congrArg Prod.fst h
  have h2 : a.en = b.en := congrArg Prod.snd h
  rw [h1, h2]

theorem findLine_insLink (db : DB) (k : LinkRow) (l : Line) :
    findLine (applyOp db (.insLink k)) l = findLine db l := rfl

theorem findLine_insSentence (db : DB) (line l : Line) (hint : String) :
    findLine (applyOp db
        (.insSentence ⟨db.nextSid, line.ja.map serialize, hint, line.en⟩)) l =
      none ↔ findLine db l = none ∧ lineKey l ≠ lineKey line := by
  unfold findLine findSentence applyOp
  simp only [List.find?_append]
  constructor
  · intro h
    have h1 := Option.or_eq_none.mp h
    refine ⟨h1.1, ?_⟩
    have h2 := h1.2
    rw [List.find?_eq_none] at h2
    have := h2 ⟨db.nextSid, line.ja.map serialize, hint, line.en⟩ (by simp)
    intro hk
    apply this
    simp only [decide_eq_true_eq]
    exact ⟨(congrArg Prod.fst hk).symm, (congrArg Prod.snd hk).symm⟩
  · intro ⟨h1, h2⟩
    rw [Option.or_eq_none]
    refine ⟨h1, ?_⟩
    rw [List.find?_eq_none]
    intro x hx
    simp only [List.mem_singleton] at hx
    subst hx
    simp only [decide_eq_true_eq]
    intro hk
    exact h2 (Prod.ext hk.1.symm hk.2.symm)

theorem resolveLoop_cons_dup (storyId : Nat) (idxs : List Key) (db : DB)
    (line : Line) (rest : List Line) (i : Nat) (r : SentenceRow)
    (hf : findSentence db (line.ja.map serialize) line.en = some r) :
    resolveLoop storyId idxs db (line :: rest) i =
      ((resolveLoop storyId idxs
          (applyOp db (.insLink ⟨db.nextLinkId, r.id, storyId, idxs.getD i []⟩))
          rest (i + 1)).1,
        ⟨r.id, line.ja, line.jaHint, line.en⟩ ::
          (resolveLoop storyId idxs
            (applyOp db (.insLink ⟨db.nextLinkId, r.id, storyId, idxs.getD i []⟩))
            rest (i + 1)).2.1,
        (resolveLoop storyId idxs
          (applyOp db (.insLink ⟨db.nextLinkId, r.id, storyId, idxs.getD i []⟩))
          rest (i + 1)).2.2.1,
        .insLink ⟨db.nextLinkId, r.id, storyId, idxs.getD i []⟩ ::
          (resolveLoop storyId idxs
            (applyOp db (.insLink ⟨db.nextLinkId, r.id, storyId, idxs.getD i []⟩))
            rest (i + 1)).2.2.2) := by
  simp only [resolveLoop, resolveSentence, hf]
  simp

theorem resolveLoop_cons_new (storyId : Nat) (idxs : List Key) (db : DB)
    (line : Line) (rest : List Line) (i : Nat)
    (hf : findSentence db (line.ja.map serialize) line.en = none) :
    resolveLoop storyId idxs db (line :: rest) i =
      ((resolveLoop storyId idxs
          (applyOp (applyOp db (.insSentence ⟨db.nextSid, line.ja.map serialize,
              sentenceToPlainJapanese line.ja, line.en⟩))
            (.insLink ⟨db.nextLinkId, db.nextSid, storyId, idxs.getD i []⟩))
          rest (i + 1)).1,
        ⟨db.nextSid, line.ja, line.jaHint, line.en⟩ ::
          (resolveLoop storyId idxs
            (applyOp (applyOp db (.insSentence ⟨db.nextSid, line.ja.map serialize,
                sentenceToPlainJapanese line.ja, line.en⟩))
              (.insLink ⟨db.nextLinkId, db.nextSid, storyId, idxs.getD i []⟩))
            rest (i + 1)).2.1,
        i :: (resolveLoop storyId idxs
            (applyOp (applyOp db (.insSentence ⟨db.nextSid, line.ja.map serialize,
                sentenceToPlainJapanese line.ja, line.en⟩))
              (.insLink ⟨db.nextLinkId, db.nextSid, storyId, idxs.getD i []⟩))
            rest (i + 1)).2.2.1,
        .insSentence ⟨db.nextSid, line.ja.map serialize,
            sentenceToPlainJapanese line.ja, line.en⟩ ::
          .insLink ⟨db.nextLinkId, db.nextSid, storyId, idxs.getD i []⟩ ::
            (resolveLoop storyId idxs
              (applyOp (applyOp db (.insSentence ⟨db.nextSid, line.ja.map serialize,
                  sentenceToPlainJapanese line.ja, line.en⟩))
                (.insLink ⟨db.nextLinkId, db.nextSid, storyId, idxs.getD i []⟩))
              rest (i + 1)).2.2.2) := by
  simp only [resolveLoop, resolveSentence, hf]
  simp [applyOp]

theorem resolveLoop_need_mem (storyId : Nat) (idxs : List Key) :
    ∀ (lines : List Line) (db : DB) (i0 m : Nat),
      (m ∈ (resolveLoop storyId idxs db lines i0).2.2.1 ↔
        ∃ j l, m = i0 + j ∧ lines.get? j = some l ∧ findLine db l = none ∧
          ∀ j2, j2 < j → ∀ l2, lines.get? j2 = some l2 →
            lineKey l2 ≠ lineKey l) := by
  intro lines
  induction lines with
  | nil =>
    intro db i0 m
    constructor
    · intro h
      exact absurd h (by simp [resolveLoop])
    · rintro ⟨j, l, _, hg, _⟩
      simp at hg
  | cons line rest ih =>
    intro db i0 m
    cases hf : findLine db line with
    | some r =>
      rw [resolveLoop_cons_dup storyId idxs db line rest i0 r hf]
      simp only []
      rw [ih]
      constructor
      · rintro ⟨j2, l, hm, hg, hfl, hfo⟩
        rw [findLine_insLink] at hfl
        refine ⟨j2 + 1, l, by omega, by simpa using hg, hfl, ?_⟩
        intro j3 hj3 l2 hg2
        match j3, hg2 with
        | 0, hg2 =>
          simp at hg2
          subst hg2
          intro hk
          rw [findLine_congr db hk] at hf
          rw [hf] at hfl
          cases hfl
        | j3 + 1, hg2 =>
          exact hfo j3 (by omega) l2 (by simpa using hg2)
      · rintro ⟨j2, l, hm, hg, hfl, hfo⟩
        match j2, hg with
        | 0, hg =>
          simp at hg
          subst hg
          rw [hf] at hfl
          cases hfl
        | j2 + 1, hg =>
          refine ⟨j2, l, by omega, by simpa using hg, ?_, ?_⟩
          · rw [findLine_insLink]; exact hfl
          · intro j3 hj3 l2 hg2
            exact hfo (j3 + 1) (by omega) l2 (by simpa using hg2)
    | none =>
      rw [resolveLoop_cons_new storyId idxs db line rest i0 hf]
      simp only [List.mem_cons]
      constructor
      · rintro (rfl | h)
        · exact ⟨0, line, by omega, by simp, hf, by omega⟩
        · obtain ⟨j2, l, hm, hg, hfl, hfo⟩ := (ih _ _ _).1 h
          rw [findLine_insLink] at hfl
          rw [findLine_insSentence] at hfl
          refine ⟨j2 + 1, l, by omega, by simpa using hg, hfl.1, ?_⟩
          intro j3 hj3 l2 hg2
          match j3, hg2 with
          | 0, hg2 =>
            simp at hg2
            subst hg2
            exact fun hk => hfl.2 (hk.symm)
          | j3 + 1, hg2 =>
            exact hfo j3 (by omega) l2 (by simpa using hg2)
      · rintro ⟨j2, l, hm, hg, hfl, hfo⟩
        match j2, hg with
        | 0, hg =>
          simp at hg
          subst hg
          left
          omega
        | j2 + 1, hg =>
          right
          refine (ih _ _ _).2 ⟨j2, l, by omega, by simpa using hg, ?_, ?_⟩
          · rw [findLine_insLink, findLine_insSentence]
            exact ⟨hfl, fun hk => hfo 0 (by omega) line (by simp) hk.symm⟩
          · intro j3 hj3 l2 hg2
            exact hfo (j3 + 1) (by omega) l2 (by simpa using hg2)

/-- C3 (amended): `addSentences` computes in `sentenceIdxNeedingAudio` exactly
the indices of the net-new lines: those whose dedup key `(serialized source,
translation)` has no sentence row before the call and is not shared with an
earlier line of the same call (an earlier identical line inserts the row, so
later duplicates are dedup hits).  The subset is only logged by the source, not
returned: the returned story does not carry it (see the counterexample). -/
theorem C3_needingAudio_is_net_new (db : DB) (st : StoryM) (startIdx : Int)
    (dc : Nat) (lines : List Line) (m : Nat) :
    m ∈ (addSentences db st startIdx dc lines).needingAudio ↔
      isNetNew db lines m := by
  unfold addSentences
  simp only []
  rw [resolveLoop_need_mem]
  unfold isNetNew
  constructor
  · rintro ⟨j, l, hm, hg, hfl, hfo⟩
    have : m = j := by omega
    subst this
    exact ⟨l, hg, hfl, hfo⟩
  · rintro ⟨l, hg, hfl, hfo⟩
    exact ⟨m, l, by omega, hg, hfl, hfo⟩

/-- Story row and empty story used by the C3 and C4 counterexamples. -/
def cexSt : StoryM := ⟨1, "S", [], []⟩

/-- Store without the sentence content, with the id counter at 5. -/
def cexDbA : DB := ⟨[], [⟨1, "S"⟩], [], 5, 2, 1⟩

/-- Store already containing the sentence content under id 5. -/
def cexDbB : DB := ⟨[⟨5, [SerW.sstr "x"], "x", "x"⟩], [⟨1, "S"⟩], [], 6, 2, 1⟩

/-- C3 counterexample: `addSentences` returns only the story object.  From two
stores that differ in whether the content is net-new, the call returns the very
same story value while the net-new subsets (`[0]` versus `[]`) differ, so the
return value of the source function (the story) does not carry the
audio-generation work list. -/
theorem C3_counterexample :
    (addSentences cexDbA cexSt 0 0 [wLine "x"]).story =
      (addSentences cexDbB cexSt 0 0 [wLine "x"]).story ∧
    (addSentences cexDbA cexSt 0 0 [wLine "x"]).needingAudio = [0] ∧
    (addSentences cexDbB cexSt 0 0 [wLine "x"]).needingAudio = [] := by
  decide

/-! ### C5: content dedup (the resolver) -/

/-- The sentence table's unique constraint on `(ja, en)`. -/
def SentUnique (db : DB) : Prop :=
  List.Pairwise (fun r r2 => ¬ (r.ja = r2.ja ∧ r.en = r2.en)) db.sentences

instance (db : DB) : Decidable (SentUnique db) := by
  unfold SentUnique
  exact List.instDecidablePairwise _

theorem filter_key_le_one (jaS : List SerW) (en : String) :
    ∀ (l : List SentenceRow),
      List.Pairwise (fun r r2 => ¬ (r.ja = r2.ja ∧ r.en = r2.en)) l →
      (l.filter fun r => decide (r.ja = jaS ∧ r.en = en)).length ≤ 1 := by
  intro l
  induction l with
  | nil => intro _; simp
  | cons a l ih =>
    intro hp
    rw [List.pairwise_cons] at hp
    by_cases ha : a.ja = jaS ∧ a.en = en
    · rw [List.filter_cons_of_pos (by simpa using ha)]
      have : (l.filter fun r => decide (r.ja = jaS ∧ r.en = en)) = [] := by
        rw [List.filter_eq_nil_iff]
        intro x hx
        simp only [decide_eq_true_eq]
        intro hxk
        exact hp.1 x hx ⟨ha.1.trans hxk.1.symm, ha.2.trans hxk.2.symm⟩
      rw [this]
      simp
    · rw [List.filter_cons_of_neg (by simpa using ha)]
      exact ih hp.2

/-- C5: resolving the same `(serialized source, translation)` content twice
returns the same sentence id both times, leaves the store unchanged on the
second call, and afterwards at most one sentence row with that content exists
store-wide.  The resolver reads and writes only the sentence table, so the
result does not depend on which story the reference comes from. -/
theorem C5_resolver_dedup (db : DB) (jaS : List SerW) (h1 h2 en : String)
    (hu : SentUnique db) :
    (resolveSentence ((resolveSentence db jaS h1 en).2.1) jaS h2 en).1 =
      (resolveSentence db jaS h1 en).1 ∧
    (resolveSentence ((resolveSentence db jaS h1 en).2.1) jaS h2 en).2.1 =
      (resolveSentence db jaS h1 en).2.1 ∧
    (((resolveSentence db jaS h1 en).2.1).sentences.filter
        (fun r => decide (r.ja = jaS ∧ r.en = en))).length ≤ 1 ∧
    SentUnique ((resolveSentence db jaS h1 en).2.1) := by
  cases hf : findSentence db jaS en with
  | some r =>
    have h1eq : resolveSentence db jaS h1 en = (r.id, db, false) := by
      unfold resolveSentence
      rw [hf]
    have h2eq : resolveSentence db jaS h2 en = (r.id, db, false) := by
      unfold resolveSentence
      rw [hf]
    simp only [h1eq, h2eq]
    exact ⟨trivial, trivial, filter_key_le_one jaS en db.sentences hu, hu⟩
  | none =>
    have hnomatch : ∀ x ∈ db.sentences, ¬ (x.ja = jaS ∧ x.en = en) := by
      intro x hx
      have := (List.find?_eq_none.mp hf) x hx
      simpa using this
    have h1eq : resolveSentence db jaS h1 en =
        (db.nextSid,
          applyOp db (.insSentence ⟨db.nextSid, jaS, h1, en⟩), true) := by
      unfold resolveSentence
      rw [hf]
    have hfind2 : findSentence (applyOp db (.insSentence ⟨db.nextSid, jaS, h1, en⟩))
        jaS en = some ⟨db.nextSid, jaS, h1, en⟩ := by
      unfold findSentence applyOp
      rw [List.find?_append]
      rw [show (db.sentences.find? fun r => decide (r.ja = jaS ∧ r.en = en)) =
        none from hf]
      simp
    have h2eq : resolveSentence (applyOp db (.insSentence ⟨db.nextSid, jaS, h1, en⟩))
        jaS h2 en =
        (db.nextSid, applyOp db (.insSentence ⟨db.nextSid, jaS, h1, en⟩), false) := by
      unfold resolveSentence
      rw [hfind2]
    simp only [h1eq, h2eq]
    refine ⟨trivial, trivial, ?_, ?_⟩
    · show ((db.sentences ++ [(⟨db.nextSid, jaS, h1, en⟩ : SentenceRow)]).filter
          (fun r => decide (r.ja = jaS ∧ r.en = en))).length ≤ 1
      rw [List.filter_append]
      have hl : (db.sentences.filter fun r => decide (r.ja = jaS ∧ r.en = en)) = [] := by
        rw [List.filter_eq_nil_iff]
        intro x hx
        simpa using hnomatch x hx
      rw [hl]
      simp
    · show List.Pairwise _ (db.sentences ++ [(⟨db.nextSid, jaS, h1, en⟩ : SentenceRow)])
      rw [List.pairwise_append]
      refine ⟨hu, by simp, ?_⟩
      intro a ha b hb
      simp only [List.mem_singleton] at hb
      subst hb
      simp only []
      intro hk
      exact hnomatch a ha hk

/-- Witness for C5 on the bootstrapped empty store. -/
theorem C5_resolver_dedup_witness :
    SentUnique emptyDB ∧
    ((resolveSentence ((resolveSentence emptyDB [SerW.sstr "x"] "x" "x").2.1)
        [SerW.sstr "x"] "x" "x").1 =
      (resolveSentence emptyDB [SerW.sstr "x"] "x" "x").1 ∧
    (resolveSentence ((resolveSentence emptyDB [SerW.sstr "x"] "x" "x").2.1)
        [SerW.sstr "x"] "x" "x").2.1 =
      (resolveSentence emptyDB [SerW.sstr "x"] "x" "x").2.1 ∧
    (((resolveSentence emptyDB [SerW.sstr "x"] "x" "x").2.1).sentences.filter
        (fun r => decide (r.ja = [SerW.sstr "x"] ∧ r.en = "x"))).length ≤ 1 ∧
    SentUnique ((resolveSentence emptyDB [SerW.sstr "x"] "x" "x").2.1)) :=
  ⟨by decide, C5_resolver_dedup emptyDB [SerW.sstr "x"] "x" "x" "x" (by decide)⟩

/-! ### C4: the writes of one splice call, one statement at a time -/

/-- Referential integrity: every link row references an existing sentence
row. -/
def LinkIntegrity (db : DB) : Prop :=
  ∀ l ∈ db.links, ∃ r ∈ db.sentences, r.id = l.sentenceId

instance (db : DB) : Decidable (LinkIntegrity db) := by
  unfold LinkIntegrity
  infer_instance

/-- Precondition making one primitive write safe: a link insert must reference
an existing sentence row. -/
def opOK (db : DB) : DbOp → Prop
  | .insLink l => ∃ r ∈ db.sentences, r.id = l.sentenceId
  | _ => True

/-- Every write of the sequence is safe in the state it executes in. -/
def SafeOps : DB → List DbOp → Prop
  | _, [] => True
  | db, op :: rest => opOK db op ∧ SafeOps (applyOp db op) rest

theorem linkIntegrity_applyOp (db : DB) (op : DbOp) (hI : LinkIntegrity db)
    (hop : opOK db op) : LinkIntegrity (applyOp db op) := by
  cases op with
  | insSentence r =>
    intro l hl
    obtain ⟨x, hx, hid⟩ := hI l hl
    exact ⟨x, List.mem_append_left _ hx, hid⟩
  | insLink k =>
    intro l hl
    rcases List.mem_append.1 hl with h | h
    · exact hI l h
    · simp only [List.mem_singleton] at h
      subst h
      exact hop
  | delLink a b c =>
    intro l hl
    exact hI l (List.mem_of_mem_filter hl)

theorem safeOps_take : ∀ (ops : List DbOp) (db : DB) (n : Nat),
    SafeOps db ops → SafeOps db (ops.take n) := by
  intro ops
  induction ops with
  | nil => intro db n _; simp [SafeOps]
  | cons op rest ih =>
    intro db n h
    cases n with
    | zero => trivial
    | succ n => exact ⟨h.1, ih _ n h.2⟩

theorem linkIntegrity_applyOps : ∀ (ops : List DbOp) (db : DB),
    LinkIntegrity db → SafeOps db ops → LinkIntegrity (applyOps db ops) := by
  intro ops
  induction ops with
  | nil => intro db h _; exact h
  | cons op rest ih =>
    intro db hI hS
    exact ih _ (linkIntegrity_applyOp db op hI hS.1) hS.2

theorem safeOps_append : ∀ (a : List DbOp) (db : DB) (b : List DbOp),
    SafeOps db a → SafeOps (applyOps db a) b → SafeOps db (a ++ b) := by
  intro a
  induction a with
  | nil => intro db b _ hb; exact hb
  | cons op rest ih =>
    intro db b ha hb
    exact ⟨ha.1, ih _ b ha.2 hb⟩

theorem safeOps_of_no_insLink : ∀ (ops : List DbOp) (db : DB),
    (∀ op ∈ ops, ∀ k : LinkRow, op ≠ .insLink k) → SafeOps db ops := by
  intro ops
  induction ops with
  | nil => intro db _; trivial
  | cons op rest ih =>
    intro db h
    refine ⟨?_, ih _ fun o ho => h o (List.mem_cons_of_mem _ ho)⟩
    cases op with
    | insLink k => exact absurd rfl (h _ (by simp) k)
    | insSentence r => trivial
    | delLink a b c => trivial

theorem delOps_no_insLink (storyId : Nat) : ∀ (deleted : List Sent)
    (idxs : List Key), ∀ op ∈ delOps storyId deleted idxs,
    ∀ k : LinkRow, op ≠ .insLink k := by
  intro deleted
  induction deleted with
  | nil => intro idxs op hop; cases hop
  | cons s rest ih =>
    intro idxs op hop k
    rcases List.mem_cons.1 hop with h | h
    · subst h; simp
    · exact ih _ op h k

theorem resolveLoop_safeOps (storyId : Nat) (idxs : List Key) :
    ∀ (lines : List Line) (db : DB) (i : Nat),
      SafeOps db (resolveLoop storyId idxs db lines i).2.2.2 := by
  intro lines
  induction lines with
  | nil => intro db i; trivial
  | cons line rest ih =>
    intro db i
    cases hf : findSentence db (line.ja.map serialize) line.en with
    | some r =>
      rw [resolveLoop_cons_dup storyId idxs db line rest i r hf]
      refine ⟨⟨r, List.mem_of_find?_eq_some hf, rfl⟩, ih _ _⟩
    | none =>
      rw [resolveLoop_cons_new storyId idxs db line rest i hf]
      refine ⟨trivial, ⟨⟨db.nextSid, line.ja.map serialize,
        sentenceToPlainJapanese line.ja, line.en⟩, by simp [applyOp], rfl⟩, ih _ _⟩

theorem resolveLoop_db_eq (storyId : Nat) (idxs : List Key) :
    ∀ (lines : List Line) (db : DB) (i : Nat),
      (resolveLoop storyId idxs db lines i).1 =
        applyOps db (resolveLoop storyId idxs db lines i).2.2.2 := by
  intro lines
  induction lines with
  | nil => intro db i; rfl
  | cons line rest ih =>
    intro db i
    cases hf : findSentence db (line.ja.map serialize) line.en with
    | some r =>
      rw [resolveLoop_cons_dup storyId idxs db line rest i r hf]
      simp only [applyOps, List.foldl_cons]
      exact ih _ _
    | none =>
      rw [resolveLoop_cons_new storyId idxs db line rest i hf]
      simp only [applyOps, List.foldl_cons]
      exact ih _ _

theorem applyOps_links_mem : ∀ (ops : List DbOp) (db : DB) (l : LinkRow),
    l ∈ (applyOps db ops).links → l ∈ db.links ∨ DbOp.insLink l ∈ ops := by
  intro ops
  induction ops with
  | nil => intro db l h; exact Or.inl h
  | cons op rest ih =>
    intro db l h
    rcases ih (applyOp db op) l h with h1 | h1
    · cases op with
      | insSentence r => exact Or.inl h1
      | insLink k =>
        rcases List.mem_append.1 h1 with h2 | h2
        · exact Or.inl h2
        · simp only [List.mem_singleton] at h2
          subst h2
          exact Or.inr (by simp)
      | delLink a b c => exact Or.inl (List.mem_of_mem_filter h1)
    · exact Or.inr (List.mem_cons_of_mem _ h1)

theorem resolveLoop_insLink_idx (storyId : Nat) (idxs : List Key) :
    ∀ (lines : List Line) (db : DB) (i : Nat) (k : LinkRow),
      i + lines.length ≤ idxs.length →
      DbOp.insLink k ∈ (resolveLoop storyId idxs db lines i).2.2.2 →
      k.idx ∈ idxs := by
  intro lines
  induction lines with
  | nil => intro db i k _ h; exact absurd h (by simp [resolveLoop])
  | cons line rest ih =>
    intro db i k hlen hmem
    have hi : i < idxs.length := by
      simp only [List.length_cons] at hlen
      omega
    have hgd : idxs.getD i [] ∈ idxs := by
      have := List.getD_eq_getElem idxs [] hi
      rw [this]
      exact List.getElem_mem hi
    cases hf : findSentence db (line.ja.map serialize) line.en with
    | some r =>
      rw [resolveLoop_cons_dup storyId idxs db line rest i r hf] at hmem
      rcases List.mem_cons.1 hmem with h | h
      · cases h; exact hgd
      · exact ih _ _ k (by simp only [List.length_cons] at hlen; omega) h
    | none =>
      rw [resolveLoop_cons_new storyId idxs db line rest i hf] at hmem
      rcases List.mem_cons.1 hmem with h | h
      · cases h
      · rcases List.mem_cons.1 h with h2 | h2
        · cases h2; exact hgd
        · exact ih _ _ k (by simp only [List.length_cons] at hlen; omega) h2

/-- Safety of the write sequence of one splice call over arbitrary allocator
output and deletion data. -/
theorem ops_safety_general (db : DB) (storyId : Nat) (idxs : List Key)
    (lines : List Line) (deleted : List Sent) (delIdxs : List Key)
    (hI : LinkIntegrity db) (hlen : lines.length ≤ idxs.length) :
    applyOps (resolveLoop storyId idxs db lines 0).1 (delOps storyId deleted delIdxs) =
      applyOps db ((resolveLoop storyId idxs db lines 0).2.2.2 ++
        delOps storyId deleted delIdxs) ∧
    ∀ n, LinkIntegrity (applyOps db
        (((resolveLoop storyId idxs db lines 0).2.2.2 ++
          delOps storyId deleted delIdxs).take n)) ∧
      ∀ l ∈ (applyOps db (((resolveLoop storyId idxs db lines 0).2.2.2 ++
          delOps storyId deleted delIdxs).take n)).links,
        l ∈ db.links ∨ l.idx ∈ idxs := by
  have hsafe : SafeOps db ((resolveLoop storyId idxs db lines 0).2.2.2 ++
      delOps storyId deleted delIdxs) :=
    safeOps_append _ db _ (resolveLoop_safeOps storyId idxs lines db 0)
      (safeOps_of_no_insLink _ _ (delOps_no_insLink storyId deleted delIdxs))
  refine ⟨?_, ?_⟩
  · rw [applyOps_append, ← resolveLoop_db_eq]
  · intro n
    refine ⟨linkIntegrity_applyOps _ db hI (safeOps_take _ db n hsafe), ?_⟩
    intro l hl
    rcases applyOps_links_mem _ db l hl with h | h
    · exact Or.inl h
    · have h2 := List.mem_of_mem_take h
      rcases List.mem_append.1 h2 with h3 | h3
      · exact Or.inr (resolveLoop_insLink_idx storyId idxs lines db 0 l (by omega) h3)
      · exact absurd rfl (delOps_no_insLink _ _ _ _ h3 l)

/-- C4 (amended): the writes of one `addSentences` call are a plain sequence of
autocommitted statements, not a transaction (the counterexample exhibits a
partial failure state differing from both endpoints); nevertheless every
prefix-failure state preserves referential integrity — no link row references a
missing sentence row — and every link row present that was not there before the
call carries one of the keys allocated for this call. -/
theorem C4_prefix_safety (db : DB) (st : StoryM) (startIdx : Int) (dc : Nat)
    (lines : List Line) (hI : LinkIntegrity db) :
    (addSentences db st startIdx dc lines).db =
      applyOps db (addSentences db st startIdx dc lines).ops ∧
    ∀ n, LinkIntegrity (applyOps db ((addSentences db st startIdx dc lines).ops.take n)) ∧
      ∀ l ∈ (applyOps db ((addSentences db st startIdx dc lines).ops.take n)).links,
        l ∈ db.links ∨ l.idx ∈ (addSentences db st startIdx dc lines).newIdxs := by
  unfold addSentences
  simp only []
  exact ops_safety_general db st.id _ lines _ _ hI (by rw [mudderKeys_length])

/-- C4 counterexample: `addSentences` is not atomic.  With one net-new line the
call issues two writes; failing after the first persists a state that differs
from both the initial and the final store, so the writes do not execute as a
single atomic unit. -/
theorem C4_counterexample :
    (addSentences cexDbA cexSt 0 0 [wLine "x"]).ops.length = 2 ∧
    applyOps cexDbA ((addSentences cexDbA cexSt 0 0 [wLine "x"]).ops.take 1) ≠ cexDbA ∧
    applyOps cexDbA ((addSentences cexDbA cexSt 0 0 [wLine "x"]).ops.take 1) ≠
      (addSentences cexDbA cexSt 0 0 [wLine "x"]).db := by
  decide

/-- Witness for C4 at a concrete store and splice. -/
theorem C4_prefix_safety_witness :
    LinkIntegrity cexDbA ∧
    ((addSentences cexDbA cexSt 0 0 [wLine "x"]).db =
      applyOps cexDbA (addSentences cexDbA cexSt 0 0 [wLine "x"]).ops ∧
    (LinkIntegrity (applyOps cexDbA
        ((addSentences cexDbA cexSt 0 0 [wLine "x"]).ops.take 1)) ∧
      ∀ l ∈ (applyOps cexDbA
          ((addSentences cexDbA cexSt 0 0 [wLine "x"]).ops.take 1)).links,
        l ∈ cexDbA.links ∨
          l.idx ∈ (addSentences cexDbA cexSt 0 0 [wLine "x"]).newIdxs)) :=
  ⟨by decide,
    (C4_prefix_safety cexDbA cexSt 0 0 [wLine "x"] (by decide)).1,
    (C4_prefix_safety cexDbA cexSt 0 0 [wLine "x"] (by decide)).2 1⟩

/-! ### C9: the allocator contract -/

/-- C9 counterexample: the allocator contract cannot hold for every pair of
lexicographically ordered bounds.  For the open left bound (empty string) and
right bound "0" (the single zero digit, the lexicographically least nonempty
base-62 string), no nonempty key sorts strictly below the right bound, and the
key the modelled allocator produces indeed fails to: the claim's conclusion is
false at L open, R = "0", n = 1 even though L < R lexicographically. -/
theorem C9_counterexample :
    keyLt ([] : Key) [0] ∧ (mudderKeys [] [0] 1).length = 1 ∧
    ¬ (∀ k ∈ mudderKeys ([] : Key) [0] 1, keyLt k [0]) := by
  decide

/-- C9 (amended, spec-modelled): for every pair of bounds `L`, `R` with `L < R`
(the empty key denoting an open bound) such that the right bound is open or
does not end in the zero digit — in particular for every right bound the
allocator itself ever produced — the `n` produced keys are strictly increasing,
sort strictly between the bounds, and are themselves nonempty, non-zero-ending
base-62 keys, so further insertion below the first and above the last key
remains possible and no existing key ever needs to change (the allocator is a
pure function of its bounds). -/
theorem C9_allocator_contract (L R : Key) (n : Nat) (hR : rok R)
    (hLR : below L R) :
    (mudderKeys L R n).length = n ∧
    List.Chain keyLt L (mudderKeys L R n) ∧
    (∀ k ∈ mudderKeys L R n, below k R ∧ rok k ∧ k ≠ []) ∧
    (KeyOk L → KeyOk R → ∀ k ∈ mudderKeys L R n, KeyOk k) := by
  obtain ⟨hc, hmem⟩ := mudderKeys_spec n L R hR hLR
  refine ⟨mudderKeys_length L R n, hc, ?_, ?_⟩
  · intro k hk
    obtain ⟨g1, g2, g3, _⟩ := hmem k hk
    exact ⟨g1, g2, g3⟩
  · intro hL hRk k hk
    exact (hmem k hk).2.2.2 hL hRk

/-- Witness for C9 on an empty story (both bounds open) with three keys. -/
theorem C9_allocator_contract_witness :
    rok ([] : Key) ∧ below ([] : Key) [] ∧
    ((mudderKeys ([] : Key) [] 3).length = 3 ∧
      List.Chain keyLt [] (mudderKeys ([] : Key) [] 3) ∧
      (∀ k ∈ mudderKeys ([] : Key) [] 3, below k [] ∧ rok k ∧ k ≠ []) ∧
      (KeyOk ([] : Key) → KeyOk ([] : Key) →
        ∀ k ∈ mudderKeys ([] : Key) [] 3, KeyOk k)) :=
  ⟨by decide, Or.inl rfl, C9_allocator_contract [] [] 3 (by decide) (Or.inl rfl)⟩

/-! ### The audio cache (audio.ts voices, db.ts `audio.addAudio`, db-v1.sql
`audio` table)

The `audio` table is unique on `(sentenceId, language, speaker)` and — per the
schema — also on `base64` alone, so an insert with a blank payload is rejected
whenever any blank-payload row exists.  The text-to-speech provider is an
external collaborator; it is a parameter `tts` returning either an encoded
payload or an error, and every provider call made is recorded in the returned
call list so that call counting is observable. -/

/-- Language tag of a voice. -/
inductive Lang where
  | ja
  | en
deriving DecidableEq

/-- A speaker voice (audio.ts `Voice`; the engine is the string tag stored into
the speaker label). -/
structure Voice where
  name : String
  language : Lang
  engine : String
deriving DecidableEq

/-- audio.ts `PREFERRED_JAPANESE_VOICES`. -/
def PREFERRED_JAPANESE_VOICES : List Voice :=
  [⟨"Mizuki", .ja, "standard"⟩, ⟨"Takumi", .ja, "standard"⟩]

/-- audio.ts `PREFERRED_ENGLISH_VOICES`. -/
def PREFERRED_ENGLISH_VOICES : List Voice := [⟨"Joanna", .en, "neural"⟩]

/-- Row of the `audio` table. -/
structure AudioRow where
  id : Nat
  sentenceId : Nat
  language : Lang
  speaker : String
  base64 : String
  created : Nat
deriving DecidableEq

/-- The audio table state (the other tables are irrelevant to `addAudio`, which
reads sentence text from its in-memory arguments). -/
structure ADB where
  rows : List AudioRow
  nextId : Nat
deriving DecidableEq

/-- A provider request: text, voice name and engine, as passed to
`textToAudioBase64`. -/
structure TtsReq where
  text : String
  voice : String
  engine : String
deriving DecidableEq

/-- The speaker label stored with each row: `name ++ " " ++ engine`. -/
def speakerOf (v : Voice) : String := v.name ++ " " ++ v.engine

/-- Cache key of an audio row: (sentence, language, speaker-voice). -/
abbrev Triple := Nat × Lang × String

/-- Cache key requested for a sentence id and a voice. -/
def tripleOf (sid : Nat) (v : Voice) : Triple := (sid, v.language, speakerOf v)

/-- Cache key of a stored row. -/
def rowTriple (r : AudioRow) : Triple := (r.sentenceId, r.language, r.speaker)

/-- Provider request for a sentence and voice: the source-language hint for a
source-language voice, the translation otherwise. -/
def reqOf (s : Sent) (v : Voice) : TtsReq :=
  ⟨if v.language = Lang.ja then s.jaHint else s.en, v.name, v.engine⟩

/-- A row for the cache key exists. -/
def hasTriple (db : ADB) (t : Triple) : Prop := ∃ r ∈ db.rows, rowTriple r = t

instance (db : ADB) (t : Triple) : Decidable (hasTriple db t) := by
  unfold hasTriple
  infer_instance

/-- One voice of the `addAudio` loop body: insert the blank reservation row
(rejected when the cache key already exists or — by the schema's unique
`base64` — when any blank row exists; the rejection is caught and the voice
skipped), then call the provider, then fill the payload in (a uniqueness
rejection of the update is likewise caught and skipped, leaving the row blank).
A provider error propagates out.  Returns the outcome, the updated table, and
the provider calls made. -/
def addAudioVoice (tts : TtsReq → Except String String) (now : Nat) (db : ADB)
    (s : Sent) (v : Voice) : Except String Unit × ADB × List Triple :=
  if db.rows.any fun r =>
      decide (rowTriple r = tripleOf s.id v) || decide (r.base64 = "") then
    (.ok (), db, [])
  else
    let row : AudioRow := ⟨db.nextId, s.id, v.language, speakerOf v, "", now⟩
    let db1 : ADB := ⟨db.rows ++ [row], db.nextId + 1⟩
    match tts (reqOf s v) with
    | .error e => (.error e, db1, [tripleOf s.id v])
    | .ok b64 =>
      if db1.rows.any fun r => decide (r.id ≠ row.id ∧ r.base64 = b64) then
        (.ok (), db1, [tripleOf s.id v])
      else
        (.ok (),
          ⟨db1.rows.map fun r => if r.id = row.id then { r with base64 := b64 } else r,
            db1.nextId⟩,
          [tripleOf s.id v])

/-- The nested sentence/voice loops of `addAudio`, flattened into the sequence
of (sentence, voice) pairs they visit; the provider error short-circuits both
loops. -/
def addAudioPairs (tts : TtsReq → Except String String) (now : Nat) :
    ADB → List (Sent × Voice) → Except String Unit × ADB × List Triple
  | db, [] => (.ok (), db, [])
  | db, p :: rest =>
    match addAudioVoice tts now db p.1 p.2 with
    | (.error e, db1, calls) => (.error e, db1, calls)
    | (.ok _, db1, calls) =>
      ((addAudioPairs tts now db1 rest).1,
        (addAudioPairs tts now db1 rest).2.1,
        calls ++ (addAudioPairs tts now db1 rest).2.2)

/-- The (sentence, voice) pairs one `addAudio` call visits, in order. -/
def pairsOf (sentences : List Sent) (voices : List Voice) : List (Sent × Voice) :=
  sentences.flatMap fun s => voices.map fun v => (s, v)

/-- `addAudio` generalized over the voice list. -/
def addAudioWith (tts : TtsReq → Except String String) (now : Nat) (db : ADB)
    (sentences : List Sent) (voices : List Voice) :
    Except String Unit × ADB × List Triple :=
  addAudioPairs tts now db (pairsOf sentences voices)

/-- The `audio.addAudio` of db.ts: every sentence against the preferred
Japanese voices followed by the preferred English voices. -/
def addAudio (tts : TtsReq → Except String String) (now : Nat) (db : ADB)
    (sentences : List Sent) : Except String Unit × ADB × List Triple :=
  addAudioWith tts now db sentences
    (PREFERRED_JAPANESE_VOICES ++ PREFERRED_ENGLISH_VOICES)

theorem rowTriple_mk (i sid : Nat) (lg : Lang) (sp b64 : String) (c : Nat) :
    rowTriple ⟨i, sid, lg, sp, b64, c⟩ = (sid, lg, sp) := rfl

/-- Per-voice call discipline of the audio cache: a provider call happens only
when no row for the cache key existed, afterwards a row for it exists, existing
rows survive, and at most one call is made. -/
theorem addAudioVoice_facts (tts : TtsReq → Except String String) (now : Nat)
    (db : ADB) (s : Sent) (v : Voice) :
    ((addAudioVoice tts now db s v).2.2 = [] ∨
      (addAudioVoice tts now db s v).2.2 = [tripleOf s.id v]) ∧
    (∀ t ∈ (addAudioVoice tts now db s v).2.2, ¬ hasTriple db t) ∧
    (∀ t ∈ (addAudioVoice tts now db s v).2.2,
      hasTriple (addAudioVoice tts now db s v).2.1 t) ∧
    (∀ t, hasTriple db t → hasTriple (addAudioVoice tts now db s v).2.1 t) := by
  unfold addAudioVoice
  by_cases hc : db.rows.any fun r =>
      decide (rowTriple r = tripleOf s.id v) || decide (r.base64 = "")
  · rw [if_pos hc]
    exact ⟨Or.inl rfl, by simp, by simp, fun t h => h⟩
  · rw [if_neg hc]
    have hno : ∀ r ∈ db.rows, rowTriple r ≠ tripleOf s.id v ∧ r.base64 ≠ "" := by
      intro r hr
      rw [List.any_eq_true] at hc
      push_neg at hc
      have := hc r hr
      simpa using this
    have hnotr : ¬ hasTriple db (tripleOf s.id v) := by
      rintro ⟨r, hr, hrt⟩
      exact (hno r hr).1 hrt
    have hnew : hasTriple
        ⟨db.rows ++ [⟨db.nextId, s.id, v.language, speakerOf v, "", now⟩],
          db.nextId + 1⟩ (tripleOf s.id v) :=
      ⟨⟨db.nextId, s.id, v.language, speakerOf v, "", now⟩, by simp, rfl⟩
    have hmon : ∀ t, hasTriple db t → hasTriple
        ⟨db.rows ++ [⟨db.nextId, s.id, v.language, speakerOf v, "", now⟩],
          db.nextId + 1⟩ t := by
      rintro t ⟨r, hr, hrt⟩
      exact ⟨r, List.mem_append_left _ hr, hrt⟩
    cases htts : tts (reqOf s v) with
    | error e =>
      simp only [htts]
      refine ⟨Or.inr (by trivial), ?_, ?_, hmon⟩
      · intro t ht
        have ht2 : t = tripleOf s.id v := by simpa using ht
        subst ht2
        exact hnotr
      · intro t ht
        have ht2 : t = tripleOf s.id v := by simpa using ht
        subst ht2
        exact hnew
    | ok b64 =>
      simp only [htts]
      by_cases hu : (db.rows ++ [(⟨db.nextId, s.id, v.language, speakerOf v, "", now⟩ : AudioRow)]).any
          fun r => decide (r.id ≠ db.nextId ∧ r.base64 = b64)
      · rw [if_pos (by simpa using hu)]
        refine ⟨Or.inr (by trivial), ?_, ?_, hmon⟩
        · intro t ht
          have ht2 : t = tripleOf s.id v := by simpa using ht
          subst ht2
          exact hnotr
        · intro t ht
          have ht2 : t = tripleOf s.id v := by simpa using ht
          subst ht2
          exact hnew
      · rw [if_neg (by simpa using hu)]
        have hmapt : ∀ r : AudioRow, rowTriple (if r.id = db.nextId then
            { r with base64 := b64 } else r) = rowTriple r := by
          intro r
          by_cases h : r.id = db.nextId <;> simp [h, rowTriple]
        refine ⟨Or.inr (by trivial), ?_, ?_, ?_⟩
        · intro t ht
          have ht2 : t = tripleOf s.id v := by simpa using ht
          subst ht2
          exact hnotr
        · intro t ht
          have ht2 : t = tripleOf s.id v := by simpa using ht
          subst ht2
          refine ⟨(fun r => if r.id = db.nextId then { r with base64 := b64 } else r)
            ⟨db.nextId, s.id, v.language, speakerOf v, "", now⟩, ?_, ?_⟩
          · exact List.mem_map_of_mem _ (by simp)
          · rw [hmapt]
            rfl
        · rintro t ⟨r, hr, hrt⟩
          exact ⟨(fun r => if r.id = db.nextId then { r with base64 := b64 } else r) r,
            List.mem_map_of_mem _ (List.mem_append_left _ hr), by rw [hmapt]; exact hrt⟩

/-- Call discipline of one whole `addAudio` invocation: every provider call is
for a cache key that had no row when it was made, every called key has a row
afterwards, rows are never lost, and no key is called twice within the
invocation.  Across any sequence of invocations these four facts give at most
one provider call per cache key, ever: once a key is called its row exists from
then on, and a key with a row is never called. -/
theorem addAudioPairs_calls (tts : TtsReq → Except String String) (now : Nat) :
    ∀ (pairs : List (Sent × Voice)) (db : ADB),
      (∀ t ∈ (addAudioPairs tts now db pairs).2.2, ¬ hasTriple db t) ∧
      (∀ t ∈ (addAudioPairs tts now db pairs).2.2,
        hasTriple (addAudioPairs tts now db pairs).2.1 t) ∧
      (∀ t, hasTriple db t → hasTriple (addAudioPairs tts now db pairs).2.1 t) ∧
      (addAudioPairs tts now db pairs).2.2.Nodup := by
  intro pairs
  induction pairs with
  | nil =>
    intro db
    exact ⟨by simp [addAudioPairs], by simp [addAudioPairs], fun t h => h,
      by simp [addAudioPairs]⟩
  | cons p rest ih =>
    intro db
    obtain ⟨hone, hcall, hafter, hmon⟩ := addAudioVoice_facts tts now db p.1 p.2
    rcases hres : addAudioVoice tts now db p.1 p.2 with ⟨res, db1, calls1⟩
    rw [hres] at hone hcall hafter hmon
    simp only at hone hcall hafter hmon
    cases res with
    | error e =>
      have hstep : addAudioPairs tts now db (p :: rest) = (.error e, db1, calls1) := by
        simp [addAudioPairs, hres]
      rw [hstep]
      refine ⟨hcall, hafter, hmon, ?_⟩
      rcases hone with h | h <;> simp [h]
    | ok u =>
      have hstep : addAudioPairs tts now db (p :: rest) =
          ((addAudioPairs tts now db1 rest).1,
            (addAudioPairs tts now db1 rest).2.1,
            calls1 ++ (addAudioPairs tts now db1 rest).2.2) := by
        simp [addAudioPairs, hres]
      rw [hstep]
      obtain ⟨ih1, ih2, ih3, ih4⟩ := ih db1
      refine ⟨?_, ?_, ?_, ?_⟩
      · intro t ht
        rcases List.mem_append.1 ht with h | h
        · exact hcall t h
        · intro habs
          exact ih1 t h (hmon t habs)
      · intro t ht
        rcases List.mem_append.1 ht with h | h
        · exact ih3 t (hafter t h)
        · exact ih2 t h
      · intro t h
        exact ih3 t (hmon t h)
      · refine List.Nodup.append ?_ ih4 ?_
        · rcases hone with h | h <;> simp [h]
        · intro t ht
          exact fun ht2 => ih1 t ht2 (hafter t ht)

theorem map_fix : ∀ (l : List AudioRow) (f : AudioRow → AudioRow),
    (∀ a ∈ l, f a = a) → l.map f = l := by
  intro l f
  induction l with
  | nil => intro _; rfl
  | cons a l ih =>
    intro h
    simp only [List.map_cons]
    rw [h a (by simp), ih fun x hx => h x (List.mem_cons_of_mem _ hx)]

/-- Invariant along one `addAudio` run: no blank payload is stored, stored ids
are below the id counter (SQLite rowids), and every row either predates the run
or carries the provider payload of a requested pair under that pair's cache
key. -/
def AudioRunInv (tts : TtsReq → Except String String) (db0 : ADB)
    (pairs0 : List (Sent × Voice)) (db : ADB) : Prop :=
  (∀ r ∈ db.rows, r.base64 ≠ "") ∧
  (∀ r ∈ db.rows, r.id < db.nextId) ∧
  (∀ r ∈ db.rows, r ∈ db0.rows ∨
    ∃ q ∈ pairs0, tts (reqOf q.1 q.2) = .ok r.base64 ∧
      rowTriple r = tripleOf q.1.id q.2)

/-- Provider health over the requested pairs: every requested call succeeds
with a nonempty payload not already stored, and distinct cache keys receive
distinct payloads. -/
def TtsGood (tts : TtsReq → Except String String) (db0 : ADB)
    (pairs0 : List (Sent × Voice)) : Prop :=
  (∀ p ∈ pairs0, ∃ b, tts (reqOf p.1 p.2) = .ok b ∧ b ≠ "" ∧
    ∀ r ∈ db0.rows, r.base64 ≠ b) ∧
  (∀ p ∈ pairs0, ∀ q ∈ pairs0, tripleOf p.1.id p.2 ≠ tripleOf q.1.id q.2 →
    ∀ bp bq, tts (reqOf p.1 p.2) = .ok bp → tts (reqOf q.1 q.2) = .ok bq →
      bp ≠ bq)

theorem addAudioPairs_complete (tts : TtsReq → Except String String) (now : Nat)
    (db0 : ADB) (pairs0 : List (Sent × Voice)) (hg : TtsGood tts db0 pairs0) :
    ∀ (pairs : List (Sent × Voice)), pairs ⊆ pairs0 →
      ∀ db : ADB, AudioRunInv tts db0 pairs0 db →
      (addAudioPairs tts now db pairs).1 = .ok () ∧
      AudioRunInv tts db0 pairs0 (addAudioPairs tts now db pairs).2.1 ∧
      ∀ p ∈ pairs,
        hasTriple (addAudioPairs tts now db pairs).2.1 (tripleOf p.1.id p.2) := by
  intro pairs
  induction pairs with
  | nil =>
    intro _ db hinv
    exact ⟨rfl, hinv, by simp⟩
  | cons p rest ih =>
    intro hsub db hinv
    have hp0 : p ∈ pairs0 := hsub (by simp)
    obtain ⟨hg1, hg2⟩ := hg
    obtain ⟨b, hb, hbne, hbfresh⟩ := hg1 p hp0
    obtain ⟨hinv1, hinv2, hinv3⟩ := hinv
    by_cases hT : hasTriple db (tripleOf p.1.id p.2)
    · have hany : (db.rows.any fun r =>
          decide (rowTriple r = tripleOf p.1.id p.2) ||
            decide (r.base64 = "")) = true := by
        obtain ⟨r, hr, hrt⟩ := hT
        rw [List.any_eq_true]
        exact ⟨r, hr, by simp [hrt]⟩
      have hstep : addAudioVoice tts now db p.1 p.2 = (.ok (), db, []) := by
        unfold addAudioVoice
        rw [if_pos hany]
      have hrec : addAudioPairs tts now db (p :: rest) =
          ((addAudioPairs tts now db rest).1,
            (addAudioPairs tts now db rest).2.1,
            [] ++ (addAudioPairs tts now db rest).2.2) := by
        simp [addAudioPairs, hstep]
      rw [hrec]
      obtain ⟨ih1, ih2, ih3⟩ := ih (fun x hx => hsub (List.mem_cons_of_mem _ hx))
        db ⟨hinv1, hinv2, hinv3⟩
      refine ⟨ih1, ih2, ?_⟩
      intro q hq
      rcases List.mem_cons.1 hq with hq1 | hq2
      · subst hq1
        exact (addAudioPairs_calls tts now rest db).2.2.1 _ hT
      · exact ih3 q hq2
    · have hany : ¬ ((db.rows.any fun r =>
          decide (rowTriple r = tripleOf p.1.id p.2) ||
            decide (r.base64 = "")) = true) := by
        rw [Bool.not_eq_true, List.any_eq_false]
        intro r hr
        simp only [Bool.or_eq_true, decide_eq_true_eq, not_or]
        exact ⟨fun h => hT ⟨r, hr, h⟩, by simpa using hinv1 r hr⟩
      have hnob : ∀ r ∈ db.rows, r.base64 ≠ b := by
        intro r hr hrb
        rcases hinv3 r hr with h | ⟨q, hq0, hqok, hqt⟩
        · exact hbfresh r h hrb
        · by_cases hk : tripleOf p.1.id p.2 = tripleOf q.1.id q.2
          · exact hT ⟨r, hr, by rw [hqt, hk]⟩
          · exact hg2 p hp0 q hq0 hk b r.base64 hb hqok hrb.symm
      have hucond : ¬ (((db.rows ++
          [(⟨db.nextId, p.1.id, p.2.language, speakerOf p.2, "", now⟩ : AudioRow)]).any
            fun r => decide (r.id ≠ db.nextId ∧ r.base64 = b)) = true) := by
        rw [Bool.not_eq_true, List.any_eq_false]
        intro r hr
        simp only [decide_eq_true_eq, not_and]
        rcases List.mem_append.1 hr with h | h
        · intro _; exact hnob r h
        · simp only [List.mem_singleton] at h
          subst h
          intro hid
          exact absurd rfl hid
      have hstep : addAudioVoice tts now db p.1 p.2 =
          (.ok (), ⟨db.rows ++
              [⟨db.nextId, p.1.id, p.2.language, speakerOf p.2, b, now⟩],
            db.nextId + 1⟩, [tripleOf p.1.id p.2]) := by
        unfold addAudioVoice
        rw [if_neg hany]
        simp only [hb]
        rw [if_neg hucond]
        have hmap : (db.rows ++
            [(⟨db.nextId, p.1.id, p.2.language, speakerOf p.2, "", now⟩ : AudioRow)]).map
            (fun r => if r.id = db.nextId then { r with base64 := b } else r) =
            db.rows ++ [⟨db.nextId, p.1.id, p.2.language, speakerOf p.2, b, now⟩] := by
          rw [List.map_append]
          congr 1
          · apply map_fix
            intro a ha
            rw [if_neg]
            intro hid
            exact absurd hid (Nat.ne_of_lt (hinv2 a ha))
          · simp
        rw [hmap]
      have hinvNew : AudioRunInv tts db0 pairs0
          ⟨db.rows ++ [⟨db.nextId, p.1.id, p.2.language, speakerOf p.2, b, now⟩],
            db.nextId + 1⟩ := by
        refine ⟨?_, ?_, ?_⟩
        · intro r hr
          rcases List.mem_append.1 hr with h | h
          · exact hinv1 r h
          · simp only [List.mem_singleton] at h
            subst h
            exact hbne
        · intro r hr
          rcases List.mem_append.1 hr with h | h
          · exact Nat.lt_succ_of_lt (hinv2 r h)
          · simp only [List.mem_singleton] at h
            subst h
            exact Nat.lt_succ_self _
        · intro r hr
          rcases List.mem_append.1 hr with h | h
          · rcases hinv3 r h with h2 | h2
            · exact Or.inl h2
            · exact Or.inr h2
          · simp only [List.mem_singleton] at h
            subst h
            exact Or.inr ⟨p, hp0, by simpa using hb, rfl⟩
      have hrec : addAudioPairs tts now db (p :: rest) =
          ((addAudioPairs tts now
              ⟨db.rows ++ [⟨db.nextId, p.1.id, p.2.language, speakerOf p.2, b, now⟩],
                db.nextId + 1⟩ rest).1,
            (addAudioPairs tts now
              ⟨db.rows ++ [⟨db.nextId, p.1.id, p.2.language, speakerOf p.2, b, now⟩],
                db.nextId + 1⟩ rest).2.1,
            [tripleOf p.1.id p.2] ++ (addAudioPairs tts now
              ⟨db.rows ++ [⟨db.nextId, p.1.id, p.2.language, speakerOf p.2, b, now⟩],
                db.nextId + 1⟩ rest).2.2) := by
        simp [addAudioPairs, hstep]
      rw [hrec]
      obtain ⟨ih1, ih2, ih3⟩ := ih (fun x hx => hsub (List.mem_cons_of_mem _ hx))
        ⟨db.rows ++ [⟨db.nextId, p.1.id, p.2.language, speakerOf p.2, b, now⟩],
          db.nextId + 1⟩ hinvNew
      refine ⟨ih1, ih2, ?_⟩
      intro q hq
      rcases List.mem_cons.1 hq with hq1 | hq2
      · subst hq1
        refine (addAudioPairs_calls tts now rest _).2.2.1 _ ?_
        exact ⟨⟨db.nextId, q.1.id, q.2.language, speakerOf q.2, b, now⟩, by simp, rfl⟩
      · exact ih3 q hq2

/-- C2 (amended): call discipline holds unconditionally — each provider call in
one `addAudio` invocation is for a cache key without a row at call time, the
key has a row afterwards, rows are never lost, and no key is called twice in
one invocation; composed over any sequence of invocations this gives at most
one provider call per (sentence, language, speaker-voice) triple, ever.  The
row-existence half of the contract holds under provider health: if the store
has no leftover blank reservation, stored ids are below the id counter, every
requested call succeeds with a nonempty payload not already stored, and
distinct cache keys get distinct payloads, then the invocation returns
normally and every requested triple has an Audio row.  (Without these provisos
the row-existence half fails: the schema's unique `base64` column makes any
leftover blank reservation block all later reservations — see the
counterexample.) -/
theorem C2_ensureAudio (tts : TtsReq → Except String String) (now : Nat)
    (db : ADB) (sentences : List Sent) (voices : List Voice) :
    (∀ t ∈ (addAudioWith tts now db sentences voices).2.2, ¬ hasTriple db t) ∧
    (∀ t ∈ (addAudioWith tts now db sentences voices).2.2,
      hasTriple (addAudioWith tts now db sentences voices).2.1 t) ∧
    (∀ t, hasTriple db t →
      hasTriple (addAudioWith tts now db sentences voices).2.1 t) ∧
    (addAudioWith tts now db sentences voices).2.2.Nodup ∧
    ((∀ r ∈ db.rows, r.base64 ≠ "") →
      (∀ r ∈ db.rows, r.id < db.nextId) →
      TtsGood tts db (pairsOf sentences voices) →
      (addAudioWith tts now db sentences voices).1 = .ok () ∧
      ∀ s ∈ sentences, ∀ v ∈ voices,
        hasTriple (addAudioWith tts now db sentences voices).2.1
          (tripleOf s.id v)) := by
  obtain ⟨h1, h2, h3, h4⟩ :=
    addAudioPairs_calls tts now (pairsOf sentences voices) db
  refine ⟨h1, h2, h3, h4, ?_⟩
  intro hblank hids hg
  obtain ⟨c1, _, c3⟩ := addAudioPairs_complete tts now db
    (pairsOf sentences voices) hg (pairsOf sentences voices)
    (fun x hx => hx) db ⟨hblank, hids, fun r hr => Or.inl hr⟩
  refine ⟨c1, ?_⟩
  intro s hs v hv
  exact c3 (s, v) (by
    unfold pairsOf
    rw [List.mem_flatMap]
    exact ⟨s, hs, List.mem_map_of_mem _ hv⟩)

/-- A provider that always fails with a network error. -/
def ttsFail : TtsReq → Except String String := fun _ => .error "neterr"

/-- A provider returning a distinct nonempty data URL per request. -/
def ttsOkF : TtsReq → Except String String :=
  fun r => .ok ("data:" ++ r.text ++ "|" ++ r.voice ++ "|" ++ r.engine)

/-- C2 counterexample: a provider failure leaves a blank reservation for
sentence 1, and because the schema makes `base64` unique store-wide, a later
`addAudio` invocation for a different sentence returns normally without
creating any Audio row for its requested triples (every blank insert is
rejected by the leftover blank row), falsifying the claim that a row exists for
each requested triple after the call returns. -/
theorem C2_counterexample :
    (addAudio ttsOkF 0 (addAudio ttsFail 0 ⟨[], 1⟩ [wSent 1 "a"]).2.1
        [wSent 2 "b"]).1 = .ok () ∧
    ¬ hasTriple (addAudio ttsOkF 0 (addAudio ttsFail 0 ⟨[], 1⟩ [wSent 1 "a"]).2.1
        [wSent 2 "b"]).2.1 (tripleOf 2 ⟨"Mizuki", Lang.ja, "standard"⟩) := by
  constructor
  · rfl
  · decide

/-- Witness for C2 with one sentence and one voice over a healthy provider. -/
theorem C2_ensureAudio_witness :
    ((∀ t ∈ (addAudioWith ttsOkF 0 ⟨[], 1⟩ [wSent 1 "a"]
        [⟨"Mizuki", Lang.ja, "standard"⟩]).2.2, ¬ hasTriple ⟨[], 1⟩ t) ∧
    (∀ t ∈ (addAudioWith ttsOkF 0 ⟨[], 1⟩ [wSent 1 "a"]
        [⟨"Mizuki", Lang.ja, "standard"⟩]).2.2,
      hasTriple (addAudioWith ttsOkF 0 ⟨[], 1⟩ [wSent 1 "a"]
        [⟨"Mizuki", Lang.ja, "standard"⟩]).2.1 t) ∧
    (∀ t, hasTriple ⟨[], 1⟩ t →
      hasTriple (addAudioWith ttsOkF 0 ⟨[], 1⟩ [wSent 1 "a"]
        [⟨"Mizuki", Lang.ja, "standard"⟩]).2.1 t) ∧
    (addAudioWith ttsOkF 0 ⟨[], 1⟩ [wSent 1 "a"]
        [⟨"Mizuki", Lang.ja, "standard"⟩]).2.2.Nodup ∧
    ((∀ r ∈ (⟨[], 1⟩ : ADB).rows, r.base64 ≠ "") →
      (∀ r ∈ (⟨[], 1⟩ : ADB).rows, r.id < (⟨[], 1⟩ : ADB).nextId) →
      TtsGood ttsOkF ⟨[], 1⟩ (pairsOf [wSent 1 "a"] [⟨"Mizuki", Lang.ja, "standard"⟩]) →
      (addAudioWith ttsOkF 0 ⟨[], 1⟩ [wSent 1 "a"]
        [⟨"Mizuki", Lang.ja, "standard"⟩]).1 = .ok () ∧
      ∀ s ∈ [wSent 1 "a"], ∀ v ∈ [(⟨"Mizuki", Lang.ja, "standard"⟩ : Voice)],
        hasTriple (addAudioWith ttsOkF 0 ⟨[], 1⟩ [wSent 1 "a"]
          [⟨"Mizuki", Lang.ja, "standard"⟩]).2.1 (tripleOf s.id v))) ∧
    TtsGood ttsOkF ⟨[], 1⟩ (pairsOf [wSent 1 "a"] [⟨"Mizuki", Lang.ja, "standard"⟩]) :=
  ⟨C2_ensureAudio ttsOkF 0 ⟨[], 1⟩ [wSent 1 "a"] [⟨"Mizuki", Lang.ja, "standard"⟩],
    ⟨by
      intro p hp
      have hp2 : p = (wSent 1 "a", (⟨"Mizuki", Lang.ja, "standard"⟩ : Voice)) := by
        simpa [pairsOf] using hp
      subst hp2
      exact ⟨"data:a|Mizuki|standard", rfl, by decide, by simp⟩,
    by
      intro p hp q hq hne bp bq hbp hbq
      have hp2 : p = (wSent 1 "a", (⟨"Mizuki", Lang.ja, "standard"⟩ : Voice)) := by
        simpa [pairsOf] using hp
      have hq2 : q = (wSent 1 "a", (⟨"Mizuki", Lang.ja, "standard"⟩ : Voice)) := by
        simpa [pairsOf] using hq
      subst hp2
      subst hq2
      exact absurd rfl hne⟩⟩

/-- C8 (amended): when the provider call fails after the blank Audio row has
been reserved, the reserved row is left with an empty payload, no retry is ever
attempted (any later invocation from a store still holding the row makes no
provider call for that triple), and the provider error is re-thrown to the
caller of `addAudio` (the source only catches uniqueness violations). -/
theorem C8_provider_failure (tts : TtsReq → Except String String) (now : Nat)
    (db : ADB) (s : Sent) (v : Voice) (e : String)
    (hfree : ¬ hasTriple db (tripleOf s.id v))
    (hnoblank : ∀ r ∈ db.rows, r.base64 ≠ "")
    (herr : tts (reqOf s v) = .error e) :
    (addAudioVoice tts now db s v).1 = .error e ∧
    (∃ row ∈ (addAudioVoice tts now db s v).2.1.rows,
      rowTriple row = tripleOf s.id v ∧ row.base64 = "") ∧
    (addAudioVoice tts now db s v).2.2 = [tripleOf s.id v] ∧
    ∀ (tts2 : TtsReq → Except String String) (now2 : Nat)
      (pairs : List (Sent × Voice)) (db2 : ADB),
      (∀ t, hasTriple (addAudioVoice tts now db s v).2.1 t → hasTriple db2 t) →
      tripleOf s.id v ∉ (addAudioPairs tts2 now2 db2 pairs).2.2 := by
  have hany : ¬ ((db.rows.any fun r =>
      decide (rowTriple r = tripleOf s.id v) || decide (r.base64 = "")) = true) := by
    rw [Bool.not_eq_true, List.any_eq_false]
    intro r hr
    simp only [Bool.or_eq_true, decide_eq_true_eq, not_or]
    exact ⟨fun h => hfree ⟨r, hr, h⟩, by simpa using hnoblank r hr⟩
  have hstep : addAudioVoice tts now db s v =
      (.error e, ⟨db.rows ++ [⟨db.nextId, s.id, v.language, speakerOf v, "", now⟩],
        db.nextId + 1⟩, [tripleOf s.id v]) := by
    unfold addAudioVoice
    rw [if_neg hany]
    simp only [herr]
  rw [hstep]
  refine ⟨rfl, ⟨⟨db.nextId, s.id, v.language, speakerOf v, "", now⟩, by simp, rfl, rfl⟩,
    rfl, ?_⟩
  intro tts2 now2 pairs db2 hmon hmem
  have hT : hasTriple db2 (tripleOf s.id v) :=
    hmon _ ⟨⟨db.nextId, s.id, v.language, speakerOf v, "", now⟩, by simp, rfl⟩
  exact (addAudioPairs_calls tts2 now2 pairs db2).1 _ hmem hT

/-- Witness for C8: a failed reservation for sentence 1 surfaces the error,
leaves the blank row, and a later healthy invocation never calls the provider
for that triple. -/
theorem C8_provider_failure_witness :
    (¬ hasTriple ⟨[], 1⟩ (tripleOf 1 ⟨"Mizuki", Lang.ja, "standard"⟩)) ∧
    (∀ r ∈ (⟨[], 1⟩ : ADB).rows, r.base64 ≠ "") ∧
    ttsFail (reqOf (wSent 1 "a") ⟨"Mizuki", Lang.ja, "standard"⟩) = .error "neterr" ∧
    (addAudioVoice ttsFail 0 ⟨[], 1⟩ (wSent 1 "a")
        ⟨"Mizuki", Lang.ja, "standard"⟩).1 = .error "neterr" ∧
    (∃ row ∈ (addAudioVoice ttsFail 0 ⟨[], 1⟩ (wSent 1 "a")
        ⟨"Mizuki", Lang.ja, "standard"⟩).2.1.rows,
      rowTriple row = tripleOf 1 ⟨"Mizuki", Lang.ja, "standard"⟩ ∧
        row.base64 = "") ∧
    (addAudioVoice ttsFail 0 ⟨[], 1⟩ (wSent 1 "a")
        ⟨"Mizuki", Lang.ja, "standard"⟩).2.2 =
      [tripleOf 1 ⟨"Mizuki", Lang.ja, "standard"⟩] ∧
    tripleOf 1 ⟨"Mizuki", Lang.ja, "standard"⟩ ∉
      (addAudioPairs ttsOkF 7 (addAudioVoice ttsFail 0 ⟨[], 1⟩ (wSent 1 "a")
          ⟨"Mizuki", Lang.ja, "standard"⟩).2.1
        (pairsOf [wSent 2 "b"]
          (PREFERRED_JAPANESE_VOICES ++ PREFERRED_ENGLISH_VOICES))).2.2 := by
  have h := C8_provider_failure ttsFail 0 ⟨[], 1⟩ (wSent 1 "a")
    ⟨"Mizuki", Lang.ja, "standard"⟩ "neterr" (by decide) (by simp) rfl
  exact ⟨by decide, by simp, rfl, h.1, h.2.1, h.2.2.1,
    h.2.2.2 ttsOkF 7 _ _ (fun t ht => ht)⟩

/-- C8 counterexample: the claim that no error is surfaced to the caller is
false — a provider failure after the reservation is re-thrown out of
`addAudio` (only uniqueness violations are caught), even though the blank row
is indeed left behind. -/
theorem C8_counterexample :
    (addAudio ttsFail 0 ⟨[], 1⟩ [wSent 1 "a"]).1 = .error "neterr" ∧
    (∃ row ∈ (addAudio ttsFail 0 ⟨[], 1⟩ [wSent 1 "a"]).2.1.rows,
      rowTriple row = tripleOf 1 ⟨"Mizuki", Lang.ja, "standard"⟩ ∧
        row.base64 = "") :=
  ⟨rfl, by decide⟩

/-! ### Store wellformedness and the per-story ordering invariant -/

/-- The (sentenceId, ordering key) content of a link row. -/
def linkPair (l : LinkRow) : Nat × Key := (l.sentenceId, l.idx)

/-- The (sentenceId, ordering key) pairs of one story's links, in rowid
order. -/
def storyPairs (db : DB) (storyId : Nat) : List (Nat × Key) :=
  (storyLinks db storyId).map linkPair

/-- Wellformedness of the relational store: schema constraints (unique
`(ja, en)`, unique titles), rowid discipline, the derived fact that every
stored `jaHint` is the flattening of its stored words, and link-to-story
referential integrity. -/
def DbWf (db : DB) : Prop :=
  SentUnique db ∧
  (∀ r ∈ db.sentences, r.id < db.nextSid) ∧
  List.Pairwise (fun r r2 => r.id ≠ r2.id) db.sentences ∧
  (∀ r ∈ db.sentences, r.jaHint = sentenceToPlainJapanese (r.ja.map deserialize)) ∧
  (∀ r ∈ db.stories, r.id < db.nextStoryId) ∧
  List.Pairwise (fun r r2 => r.title ≠ r2.title) db.stories ∧
  (∀ l ∈ db.links, ∃ sr ∈ db.stories, sr.id = l.storyId)

instance (db : DB) : Decidable (DbWf db) := by
  unfold DbWf SentUnique
  infer_instance

/-- The per-story invariant: the story has its row, the in-memory key array
matches the sentence array in length, is strictly increasing with usable
nonempty keys, the story's link rows carry exactly the (sentence id, key)
pairs of the in-memory arrays, and every in-memory sentence has its content
row. -/
def StoryInv (db : DB) (st : StoryM) : Prop :=
  (∃ srow ∈ db.stories, srow.id = st.id ∧ srow.title = st.title) ∧
  st.lexIdxs.length = st.sentences.length ∧
  List.Pairwise keyLt st.lexIdxs ∧
  (∀ k ∈ st.lexIdxs, k ≠ [] ∧ rok k) ∧
  (storyPairs db st.id).Perm ((st.sentences.map Sent.id).zip st.lexIdxs) ∧
  (∀ s ∈ st.sentences, ∃ r ∈ db.sentences, r.id = s.id ∧
    r.ja = s.ja.map serialize ∧ r.en = s.en ∧
    r.jaHint = sentenceToPlainJapanese s.ja)

instance (db : DB) (st : StoryM) : Decidable (StoryInv db st) := by
  unfold StoryInv
  infer_instance

/-- Consistency of an in-memory story with the store. -/
def StoreInv (db : DB) (st : StoryM) : Prop := DbWf db ∧ StoryInv db st

instance (db : DB) (st : StoryM) : Decidable (StoreInv db st) := by
  unfold StoreInv
  infer_instance

theorem roundtrip_serW (ws : List Word) :
    (ws.map serialize).map deserialize = ws := by
  rw [List.map_map]
  have : (deserialize ∘ serialize) = id := by
    funext w
    exact deserialize_serialize w
  rw [this, List.map_id]

theorem find_by_title (title : String) :
    ∀ (stories : List StoryRow), List.Pairwise (fun r r2 => r.title ≠ r2.title) stories →
    ∀ srow ∈ stories, srow.title = title →
    (stories.find? fun r => decide (r.title = title)) = some srow := by
  intro stories
  induction stories with
  | nil => intro _ srow h; cases h
  | cons r rest ih =>
    intro hp srow hmem ht
    rw [List.pairwise_cons] at hp
    rcases List.mem_cons.1 hmem with h | h
    · subst h
      rw [List.find?_cons_of_pos _ (by simpa using ht)]
    · by_cases hr : r.title = title
      · exact absurd (hr.trans ht.symm) (hp.1 srow h)
      · rw [List.find?_cons_of_neg _ (by simpa using hr)]
        exact ih hp.2 srow h ht

theorem find_by_id (x : Nat) :
    ∀ (rows : List SentenceRow), List.Pairwise (fun r r2 => r.id ≠ r2.id) rows →
    ∀ r ∈ rows, r.id = x →
    (rows.find? fun r2 => decide (r2.id = x)) = some r := by
  intro rows
  induction rows with
  | nil => intro _ r h; cases h
  | cons a rest ih =>
    intro hp r hmem hid
    rw [List.pairwise_cons] at hp
    rcases List.mem_cons.1 hmem with h | h
    · subst h
      rw [List.find?_cons_of_pos _ (by simpa using hid)]
    · by_cases ha : a.id = x
      · exact absurd (ha.trans hid.symm) (hp.1 r h)
      · rw [List.find?_cons_of_neg _ (by simpa using ha)]
        exact ih hp.2 r h hid

theorem pairwise_zip_snd {R : Key → Key → Prop} :
    ∀ (ids : List Nat) (ks : List Key), List.Pairwise R ks →
    List.Pairwise (fun p q : Nat × Key => R p.2 q.2) (ids.zip ks) := by
  intro ids
  induction ids with
  | nil => intro ks _; simp
  | cons i rest ih =>
    intro ks hp
    cases ks with
    | nil => simp
    | cons k kt =>
      rw [List.pairwise_cons] at hp
      rw [List.zip_cons_cons, List.pairwise_cons]
      refine ⟨?_, ih kt hp.2⟩
      intro p hp2
      have := List.of_mem_zip hp2
      exact hp.1 p.2 this.2

theorem filter_ne_of_perm_cons (M : List (Nat × Key)) (b : Nat × Key)
    (N : List (Nat × Key)) (hperm : M.Perm (b :: N)) (hb : b ∉ N) :
    (M.filter fun p => decide (¬ p = b)).Perm N := by
  have h1 := List.Perm.filter (fun p => decide (¬ p = b)) hperm
  rw [List.filter_cons_of_neg (by simp)] at h1
  have h2 : (N.filter fun p => decide (¬ p = b)) = N := by
    rw [List.filter_eq_self]
    intro a ha
    simp only [decide_eq_true_eq]
    rintro rfl
    exact hb ha
  rwa [h2] at h1

/-! ### What the resolve/link loop does to the store -/

/-- Full identifying content of a link row (story, sentence, key). -/
def linkSK (l : LinkRow) : Nat × Nat × Key := (l.storyId, l.sentenceId, l.idx)

/-- The allocator keys consumed by loop positions `i, i+1, ...` (`n` of them),
reading `newIdxs[i]` as the source does. -/
def idxSeg (idxs : List Key) (i n : Nat) : List Key :=
  (List.range n).map fun j => idxs.getD (i + j) []

theorem idxSeg_succ (idxs : List Key) (i n : Nat) :
    idxSeg idxs i (n + 1) = idxs.getD i [] :: idxSeg idxs (i + 1) n := by
  unfold idxSeg
  rw [List.range_succ_eq_map]
  simp only [List.map_cons, Nat.add_zero, List.map_map]
  congr 1
  apply List.map_congr_left
  intro j _
  simp only [Function.comp_apply]
  congr 1
  omega

theorem idxSeg_shift (k : Key) (t : List Key) (i n : Nat) :
    idxSeg (k :: t) (i + 1) n = idxSeg t i n := by
  unfold idxSeg
  apply List.map_congr_left
  intro j _
  have : i + 1 + j = (i + j) + 1 := by omega
  rw [this]
  rfl

theorem idxSeg_full : ∀ (idxs : List Key), idxSeg idxs 0 idxs.length = idxs := by
  intro idxs
  induction idxs with
  | nil => rfl
  | cons k t ih =>
    rw [List.length_cons, idxSeg_succ, idxSeg_shift]
    rw [ih]
    rfl

theorem resolveLoop_state (storyId : Nat) (idxs : List Key) :
    ∀ (lines : List Line) (db : DB) (i : Nat),
      (resolveLoop storyId idxs db lines i).1.stories = db.stories ∧
      (resolveLoop storyId idxs db lines i).1.nextStoryId = db.nextStoryId ∧
      (∃ extra, (resolveLoop storyId idxs db lines i).1.sentences =
        db.sentences ++ extra) ∧
      (resolveLoop storyId idxs db lines i).1.links.map linkSK =
        db.links.map linkSK ++
          ((((resolveLoop storyId idxs db lines i).2.1.map Sent.id).zip
            (idxSeg idxs i lines.length)).map fun p => (storyId, p.1, p.2)) := by
  intro lines
  induction lines with
  | nil =>
    intro db i
    exact ⟨rfl, rfl, ⟨[], by simp [resolveLoop]⟩, by simp [resolveLoop, idxSeg]⟩
  | cons line rest ih =>
    intro db i
    cases hf : findSentence db (line.ja.map serialize) line.en with
    | some r =>
      rw [resolveLoop_cons_dup storyId idxs db line rest i r hf]
      simp only []
      obtain ⟨h1, h2, ⟨extra, h3⟩, h4⟩ := ih
        (applyOp db (DbOp.insLink ⟨db.nextLinkId, r.id, storyId, idxs.getD i []⟩)) (i + 1)
      refine ⟨h1, h2, ⟨extra, h3⟩, ?_⟩
      rw [h4]
      show (db.links ++ [(⟨db.nextLinkId, r.id, storyId, idxs.getD i []⟩ : LinkRow)]).map linkSK ++ _ = _
      rw [List.map_append, List.length_cons, idxSeg_succ]
      simp [linkSK]
    | none =>
      rw [resolveLoop_cons_new storyId idxs db line rest i hf]
      simp only []
      obtain ⟨h1, h2, ⟨extra, h3⟩, h4⟩ := ih
        (applyOp (applyOp db (DbOp.insSentence ⟨db.nextSid, line.ja.map serialize,
            sentenceToPlainJapanese line.ja, line.en⟩))
          (DbOp.insLink ⟨db.nextLinkId, db.nextSid, storyId, idxs.getD i []⟩)) (i + 1)
      refine ⟨h1, h2, ?_, ?_⟩
      · refine ⟨⟨db.nextSid, line.ja.map serialize,
          sentenceToPlainJapanese line.ja, line.en⟩ :: extra, ?_⟩
        rw [h3]
        simp [applyOp]
      · rw [h4]
        show (db.links ++ [(⟨db.nextLinkId, db.nextSid, storyId, idxs.getD i []⟩ : LinkRow)]).map linkSK ++ _ = _
        rw [List.map_append, List.length_cons, idxSeg_succ]
        simp [linkSK]

theorem resolveLoop_wf (storyId : Nat) (idxs : List Key) :
    ∀ (lines : List Line) (db : DB) (i : Nat), DbWf db →
      (∃ sr ∈ db.stories, sr.id = storyId) →
      DbWf (resolveLoop storyId idxs db lines i).1 := by
  intro lines
  induction lines with
  | nil => intro db i h _; exact h
  | cons line rest ih =>
    intro db i hw hst
    obtain ⟨w1, w2, w3, w4, w5, w6, w7⟩ := hw
    cases hf : findSentence db (line.ja.map serialize) line.en with
    | some r =>
      rw [resolveLoop_cons_dup storyId idxs db line rest i r hf]
      simp only []
      apply ih
      · refine ⟨w1, w2, w3, w4, w5, w6, ?_⟩
        intro l hl
        rcases List.mem_append.1 hl with h | h
        · exact w7 l h
        · simp only [List.mem_singleton] at h
          subst h
          exact hst
      · exact hst
    | none =>
      rw [resolveLoop_cons_new storyId idxs db line rest i hf]
      simp only []
      have hnomatch : ∀ x ∈ db.sentences,
          ¬ (x.ja = line.ja.map serialize ∧ x.en = line.en) := by
        intro x hx
        have := (List.find?_eq_none.mp hf) x hx
        simpa using this
      apply ih
      · refine ⟨?_, ?_, ?_, ?_, w5, w6, ?_⟩
        · show List.Pairwise _ (db.sentences ++ [_])
          rw [List.pairwise_append]
          refine ⟨w1, by simp, ?_⟩
          intro a ha b hb
          simp only [List.mem_singleton] at hb
          subst hb
          intro hk
          exact hnomatch a ha hk
        · intro x hx
          rcases List.mem_append.1 hx with h | h
          · exact Nat.lt_succ_of_lt (w2 x h)
          · simp only [List.mem_singleton] at h
            subst h
            exact Nat.lt_succ_self _
        · show List.Pairwise _ (db.sentences ++ [_])
          rw [List.pairwise_append]
          refine ⟨w3, by simp, ?_⟩
          intro a ha b hb
          simp only [List.mem_singleton] at hb
          subst hb
          show a.id ≠ db.nextSid
          exact Nat.ne_of_lt (w2 a ha)
        · intro x hx
          rcases List.mem_append.1 hx with h | h
          · exact w4 x h
          · simp only [List.mem_singleton] at h
            subst h
            show sentenceToPlainJapanese line.ja =
              sentenceToPlainJapanese ((line.ja.map serialize).map deserialize)
            rw [roundtrip_serW]
        · intro l hl
          rcases List.mem_append.1 hl with h | h
          · exact w7 l h
          · simp only [List.mem_singleton] at h
            subst h
            exact hst
      · exact hst

theorem resolveLoop_rows (storyId : Nat) (idxs : List Key) :
    ∀ (lines : List Line) (db : DB) (i : Nat),
      (∀ r ∈ db.sentences, r.jaHint = sentenceToPlainJapanese (r.ja.map deserialize)) →
      ∀ s ∈ (resolveLoop storyId idxs db lines i).2.1,
        ∃ r ∈ (resolveLoop storyId idxs db lines i).1.sentences,
          r.id = s.id ∧ r.ja = s.ja.map serialize ∧ r.en = s.en ∧
          r.jaHint = sentenceToPlainJapanese s.ja := by
  intro lines
  induction lines with
  | nil => intro db i _ s hs; cases hs
  | cons line rest ih =>
    intro db i hja s hs
    cases hf : findSentence db (line.ja.map serialize) line.en with
    | some r =>
      rw [resolveLoop_cons_dup storyId idxs db line rest i r hf] at hs ⊢
      simp only [List.mem_cons] at hs
      obtain ⟨extra2, hext⟩ := (resolveLoop_state storyId idxs rest
        (applyOp db (DbOp.insLink ⟨db.nextLinkId, r.id, storyId, idxs.getD i []⟩))
        (i + 1)).2.2.1
      rcases hs with hs | hs
      · subst hs
        have hp := List.find?_some hf
        simp only [decide_eq_true_eq] at hp
        have hrm : r ∈ db.sentences := List.mem_of_find?_eq_some hf
        refine ⟨r, ?_, rfl, hp.1, hp.2, ?_⟩
        · rw [hext]
          exact List.mem_append_left _ hrm
        · rw [hja r hrm, hp.1, roundtrip_serW]
      · exact ih (applyOp db (DbOp.insLink ⟨db.nextLinkId, r.id, storyId,
          idxs.getD i []⟩)) (i + 1) hja s hs
    | none =>
      rw [resolveLoop_cons_new storyId idxs db line rest i hf] at hs ⊢
      simp only [List.mem_cons] at hs
      obtain ⟨extra2, hext⟩ := (resolveLoop_state storyId idxs rest
        (applyOp (applyOp db (DbOp.insSentence ⟨db.nextSid, line.ja.map serialize,
            sentenceToPlainJapanese line.ja, line.en⟩))
          (DbOp.insLink ⟨db.nextLinkId, db.nextSid, storyId, idxs.getD i []⟩))
        (i + 1)).2.2.1
      rcases hs with hs | hs
      · subst hs
        refine ⟨⟨db.nextSid, line.ja.map serialize,
            sentenceToPlainJapanese line.ja, line.en⟩, ?_, rfl, rfl, rfl, rfl⟩
        rw [hext]
        apply List.mem_append_left
        simp [applyOp]
      · apply ih
        · intro x hx
          simp only [applyOp] at hx
          rcases List.mem_append.1 hx with h | h
          · exact hja x h
          · simp only [List.mem_singleton] at h
            subst h
            show sentenceToPlainJapanese line.ja =
              sentenceToPlainJapanese ((line.ja.map serialize).map deserialize)
            rw [roundtrip_serW]
        · exact hs

/-! ### What the deletion loop does to the store -/

theorem applyOps_dels_other (sid : Nat) : ∀ (bs : List Sent) (ks : List Key)
    (db : DB),
    (applyOps db (delOps sid bs ks)).sentences = db.sentences ∧
    (applyOps db (delOps sid bs ks)).stories = db.stories ∧
    (applyOps db (delOps sid bs ks)).nextStoryId = db.nextStoryId ∧
    (applyOps db (delOps sid bs ks)).nextSid = db.nextSid ∧
    ∀ l ∈ (applyOps db (delOps sid bs ks)).links, l ∈ db.links := by
  intro bs
  induction bs with
  | nil => intro ks db; exact ⟨rfl, rfl, rfl, rfl, fun l h => h⟩
  | cons s rest ih =>
    intro ks db
    show (applyOps (applyOp db _) _).sentences = _ ∧ _
    obtain ⟨h1, h2, h3, h4, h5⟩ := ih ks.tail (applyOp db
      (DbOp.delLink sid s.id (ks.headD [])))
    refine ⟨h1, h2, h3, h4, ?_⟩
    intro l hl
    exact List.mem_of_mem_filter (h5 l hl)

theorem dels_wf (sid : Nat) (bs : List Sent) (ks : List Key) (db : DB)
    (hw : DbWf db) : DbWf (applyOps db (delOps sid bs ks)) := by
  obtain ⟨h1, h2, h3, h4, h5⟩ := applyOps_dels_other sid bs ks db
  obtain ⟨w1, w2, w3, w4, w5, w6, w7⟩ := hw
  refine ⟨?_, ?_, ?_, ?_, ?_, ?_, ?_⟩
  · show List.Pairwise _ (applyOps db (delOps sid bs ks)).sentences
    rw [h1]; exact w1
  · intro r hr
    rw [h1] at hr
    show r.id < (applyOps db (delOps sid bs ks)).nextSid
    rw [h4]
    exact w2 r hr
  · rw [h1]; exact w3
  · intro r hr; rw [h1] at hr; exact w4 r hr
  · intro r hr
    rw [h2] at hr
    show r.id < (applyOps db (delOps sid bs ks)).nextStoryId
    rw [h3]
    exact w5 r hr
  · rw [h2]; exact w6
  · intro l hl
    obtain ⟨sr, hsr, hid⟩ := w7 l (h5 l hl)
    exact ⟨sr, by rw [h2]; exact hsr, hid⟩

theorem storyPairs_del (sid a : Nat) (k : Key) (db : DB) :
    storyPairs (applyOp db (.delLink sid a k)) sid =
      (storyPairs db sid).filter fun p => decide (¬ p = (a, k)) := by
  unfold storyPairs storyLinks applyOp
  simp only []
  induction db.links with
  | nil => rfl
  | cons l t iht =>
    by_cases hS : l.storyId = sid
    · by_cases hak : l.sentenceId = a ∧ l.idx = k
      · rw [List.filter_cons_of_neg (by simp [hS, hak.1, hak.2]),
          List.filter_cons_of_pos (by simp [hS]), List.map_cons,
          List.filter_cons_of_neg (by simp [linkPair, hak.1, hak.2])]
        exact iht
      · rw [List.filter_cons_of_pos (by simp [Decidable.not_and_iff_or_not] at hak ⊢; tauto),
          List.filter_cons_of_pos (by simp [hS]),
          List.filter_cons_of_pos (by simp [hS]), List.map_cons, List.map_cons,
          List.filter_cons_of_pos (by
            simp only [linkPair, decide_eq_true_eq]
            intro h
            exact hak ⟨congrArg Prod.fst h, congrArg Prod.snd h⟩)]
        rw [iht]
    · rw [List.filter_cons_of_pos (by simp [hS]),
        List.filter_cons_of_neg (by simp [hS]),
        List.filter_cons_of_neg (by simp [hS])]
      exact iht

theorem storyPairs_delOps (sid : Nat) : ∀ (bs : List Sent) (ks : List Key)
    (db : DB), bs.length ≤ ks.length →
    storyPairs (applyOps db (delOps sid bs ks)) sid =
      ((bs.map Sent.id).zip ks).foldl
        (fun m b => m.filter fun p => decide (¬ p = b)) (storyPairs db sid) := by
  intro bs
  induction bs with
  | nil => intro ks db _; rfl
  | cons s rest ih =>
    intro ks db hlen
    cases ks with
    | nil => simp at hlen
    | cons k kt =>
      show storyPairs (applyOps (applyOp db (DbOp.delLink sid s.id
        ((k :: kt).headD []))) (delOps sid rest kt)) sid = _
      rw [ih kt _ (by simpa using hlen)]
      rw [List.map_cons, List.zip_cons_cons, List.foldl_cons]
      rw [storyPairs_del]
      rfl

theorem fold_filter_perm : ∀ (B M N : List (Nat × Key)),
    M.Perm (B ++ N) → (B ++ N).Nodup →
    (B.foldl (fun m b => m.filter fun p => decide (¬ p = b)) M).Perm N := by
  intro B
  induction B with
  | nil => intro M N h _; simpa using h
  | cons b B ih =>
    intro M N hperm hnd
    rw [List.foldl_cons]
    have hcons : M.Perm (b :: (B ++ N)) := by simpa using hperm
    have hnd2 : (b :: (B ++ N)).Nodup := by simpa using hnd
    rw [List.nodup_cons] at hnd2
    exact ih _ N (filter_ne_of_perm_cons M b (B ++ N) hcons hnd2.1) hnd2.2



/-! ### Sorting the story links reproduces the canonical order -/

instance : IsAntisymm (Nat × Key) (fun p q => keyLt p.2 q.2) :=
  ⟨fun _ _ h1 h2 => absurd h2 (keyLt_asymm h1)⟩

theorem sorted_pairs_eq (db : DB) (storyId : Nat) (canon : List (Nat × Key))
    (hperm : (storyPairs db storyId).Perm canon)
    (hsorted : List.Pairwise (fun p q : Nat × Key => keyLt p.2 q.2) canon) :
    (sortLinks (storyLinks db storyId)).map linkPair = canon := by
  have hperm0 : (sortLinks (storyLinks db storyId)).Perm (storyLinks db storyId) :=
    List.perm_insertionSort linkLe (storyLinks db storyId)
  have hperm2 : ((sortLinks (storyLinks db storyId)).map linkPair).Perm canon :=
    List.Perm.trans (hperm0.map linkPair) hperm
  have hcanonsnd : (canon.map Prod.snd).Nodup := by
    have hpair : List.Pairwise (fun x y : Key => x ≠ y) (canon.map Prod.snd) := by
      rw [List.pairwise_map]
      exact hsorted.imp fun h => keyLt_ne h
    exact hpair
  have hsndnodup : ((sortLinks (storyLinks db storyId)).map fun l => l.idx).Nodup := by
    have heq : ((sortLinks (storyLinks db storyId)).map fun l => l.idx) =
        ((sortLinks (storyLinks db storyId)).map linkPair).map Prod.snd := by
      rw [List.map_map]
      rfl
    rw [heq]
    exact ((hperm2.map Prod.snd).nodup_iff).mpr hcanonsnd
  have hidxne : List.Pairwise (fun l1 l2 : LinkRow => l1.idx ≠ l2.idx)
      (sortLinks (storyLinks db storyId)) := by
    have h2 : List.Pairwise (fun x y : Key => x ≠ y)
        ((sortLinks (storyLinks db storyId)).map fun l => l.idx) := hsndnodup
    rw [List.pairwise_map] at h2
    exact h2
  have hle : List.Pairwise linkLe (sortLinks (storyLinks db storyId)) :=
    List.sorted_insertionSort linkLe (storyLinks db storyId)
  have hstrict : List.Pairwise (fun p q : Nat × Key => keyLt p.2 q.2)
      ((sortLinks (storyLinks db storyId)).map linkPair) := by
    rw [List.pairwise_map]
    refine (hle.and hidxne).imp ?_
    intro a b hab
    rcases hab.1 with h | h
    · exact h
    · exact absurd h hab.2
  exact List.eq_of_perm_of_sorted hperm2 hstrict hsorted

theorem mapOpt_getSentence (db : DB)
    (hwid : List.Pairwise (fun r r2 => r.id ≠ r2.id) db.sentences) :
    ∀ (rows : List LinkRow) (sents : List Sent),
      (rows.map fun l => l.sentenceId) = sents.map Sent.id →
      (∀ s ∈ sents, ∃ r ∈ db.sentences, r.id = s.id ∧
        r.ja = s.ja.map serialize ∧ r.en = s.en ∧
        r.jaHint = sentenceToPlainJapanese s.ja) →
      mapOpt (fun l => getSentence db l.sentenceId) rows =
        some (sents.map fun s => ⟨s.id, s.ja, sentenceToPlainJapanese s.ja, s.en⟩) := by
  intro rows
  induction rows with
  | nil =>
    intro sents hids _
    cases sents with
    | nil => rfl
    | cons s r => simp at hids
  | cons l rows ih =>
    intro sents hids hcontent
    cases sents with
    | nil => simp at hids
    | cons s rest =>
      simp only [List.map_cons, List.cons.injEq] at hids
      obtain ⟨r, hrm, hrid, hrja, hren, hrhint⟩ := hcontent s (by simp)
      have hfind : getSentence db l.sentenceId =
          some ⟨s.id, s.ja, sentenceToPlainJapanese s.ja, s.en⟩ := by
        unfold getSentence
        rw [hids.1, find_by_id s.id db.sentences hwid r hrm hrid]
        simp only [Option.map_some']
        congr 1
        rw [Sent.mk.injEq]
        refine ⟨hrid, ?_, hrhint, hren⟩
        rw [hrja, roundtrip_serW]
      have hrest := ih rest hids.2 fun x hx => hcontent x (List.mem_cons_of_mem _ hx)
      unfold mapOpt
      rw [hfind, hrest]
      rfl

/-- Reading a consistent story back (`getOrCreateStory` on an existing title)
succeeds without touching the store and returns the story in canonical form:
same id, title, ids, words, translations and keys, with each jaHint replaced by
the stored flattening of its words. -/
theorem materialize_read (db : DB) (st : StoryM) (hw : DbWf db)
    (hs : StoryInv db st) :
    getOrCreateStory db st.title = some (db,
      ⟨st.id, st.title,
        st.sentences.map fun s => ⟨s.id, s.ja, sentenceToPlainJapanese s.ja, s.en⟩,
        st.lexIdxs⟩) := by
  obtain ⟨⟨srow, hsrow, hsid, hstitle⟩, hlen, hkeys, hkmem, hperm, hcontent⟩ := hs
  obtain ⟨w1, w2, w3, w4, w5, w6, w7⟩ := hw
  have hlen2 : (st.sentences.map Sent.id).length = st.lexIdxs.length := by
    rw [List.length_map, hlen]
  have hsortedcanon : List.Pairwise (fun p q : Nat × Key => keyLt p.2 q.2)
      ((st.sentences.map Sent.id).zip st.lexIdxs) :=
    pairwise_zip_snd _ _ hkeys
  have hpairs := sorted_pairs_eq db st.id _ hperm hsortedcanon
  have hfs : findStory db st.title = some srow :=
    find_by_title st.title db.stories w6 srow hsrow hstitle
  have hids : ((sortLinks (storyLinks db st.id)).map fun l => l.sentenceId) =
      st.sentences.map Sent.id := by
    have := congrArg (List.map Prod.fst) hpairs
    rw [List.map_map] at this
    rw [show ((Prod.fst ∘ linkPair) : LinkRow → Nat) = fun l => l.sentenceId from rfl] at this
    rw [this]
    exact List.map_fst_zip _ _ (le_of_eq hlen2)
  have hidxs : ((sortLinks (storyLinks db st.id)).map fun l => l.idx) =
      st.lexIdxs := by
    have := congrArg (List.map Prod.snd) hpairs
    rw [List.map_map] at this
    rw [show ((Prod.snd ∘ linkPair) : LinkRow → Key) = fun l => l.idx from rfl] at this
    rw [this]
    exact List.map_snd_zip _ _ (le_of_eq hlen2.symm)
  have hmo := mapOpt_getSentence db w3 (sortLinks (storyLinks db st.id))
    st.sentences hids hcontent
  unfold getOrCreateStory
  rw [hfs]
  simp only [hsid, hstitle, hmo, hidxs, Option.bind_some]
  rfl

theorem jsNormStart_nonneg (len : Nat) (start : Int) (h : 0 ≤ start) :
    jsNormStart len start = min start.toNat len := by
  unfold jsNormStart
  rw [if_neg (by omega)]

theorem storyPairs_eq_linkSK (sid : Nat) (db : DB) :
    storyPairs db sid =
      ((db.links.map linkSK).filter fun t => decide (t.1 = sid)).map
        fun t => (t.2.1, t.2.2) := by
  unfold storyPairs storyLinks
  induction db.links with
  | nil => rfl
  | cons l t iht =>
    by_cases hS : l.storyId = sid
    · rw [List.filter_cons_of_pos (by simpa using hS), List.map_cons,
        List.map_cons, List.filter_cons_of_pos (by simpa using hS), List.map_cons]
      rw [iht]
      rfl
    · rw [List.filter_cons_of_neg (by simpa using hS), List.map_cons,
        List.filter_cons_of_neg (by simpa using hS)]
      exact iht

theorem filter_map_tagged (sid : Nat) : ∀ (Z : List (Nat × Key)),
    (((Z.map fun p => (sid, p.1, p.2)).filter fun t => decide (t.1 = sid)).map
      fun t => (t.2.1, t.2.2)) = Z := by
  intro Z
  induction Z with
  | nil => rfl
  | cons p t ih =>
    rw [List.map_cons, List.filter_cons_of_pos (by simp), List.map_cons, ih]

theorem storyPairs_after_loop (sid : Nat) (idxs : List Key) (lines : List Line)
    (db : DB) (hn : idxs.length = lines.length) :
    storyPairs (resolveLoop sid idxs db lines 0).1 sid =
      storyPairs db sid ++
        (((resolveLoop sid idxs db lines 0).2.1.map Sent.id).zip idxs) := by
  have h := (resolveLoop_state sid idxs lines db 0).2.2.2
  rw [storyPairs_eq_linkSK sid, h, List.filter_append, List.map_append]
  rw [← storyPairs_eq_linkSK sid db]
  congr 1
  have h2 : idxSeg idxs 0 lines.length = idxs := by
    rw [← hn]
    exact idxSeg_full idxs
  rw [h2]
  exact filter_map_tagged sid _

theorem idxOrEmpty_nonneg (K : List Key) (s : Nat) :
    idxOrEmpty K (s : Int) = K.getD s [] := by
  unfold idxOrEmpty
  rw [if_neg (by omega)]
  simp

theorem idxOrEmpty_pred (K : List Key) (s : Nat) :
    idxOrEmpty K ((s : Int) - 1) = if s = 0 then [] else K.getD (s - 1) [] := by
  unfold idxOrEmpty
  cases s with
  | zero => rw [if_pos (by omega)]; rfl
  | succ m =>
    rw [if_neg (by omega)]
    simp only [Nat.succ_ne_zero, if_false]
    congr 1
    omega

theorem getD_mem_of_lt (K : List Key) (s : Nat) (h : s < K.length) :
    K.getD s [] ∈ K := by
  rw [List.getD_eq_getElem K [] h]
  exact List.getElem_mem h

theorem getD_eq_nil_of_ge (K : List Key) (s : Nat) (h : K.length ≤ s) :
    K.getD s [] = [] := by
  unfold List.getD
  rw [show K.get? s = none from by
    rw [List.get?_eq_getElem?]
    exact List.getElem?_eq_none h]
  rfl

/-- The master ordering fact for one splice at clamped position `s`: the keys
before the position, then the freshly allocated keys, then all keys from the
position on, are strictly increasing; and the fresh keys are usable. -/
theorem master_keys (K : List Key) (s n : Nat)
    (hs : s ≤ K.length)
    (hP : List.Pairwise keyLt K)
    (hmem : ∀ k ∈ K, k ≠ [] ∧ rok k) :
    List.Pairwise keyLt (K.take s ++
      (mudderKeys (if s = 0 then [] else K.getD (s - 1) []) (K.getD s []) n ++
        K.drop s)) ∧
    (∀ k ∈ mudderKeys (if s = 0 then [] else K.getD (s - 1) []) (K.getD s []) n,
      k ≠ [] ∧ rok k) := by
  set L := if s = 0 then [] else K.getD (s - 1) [] with hLdef
  set R := K.getD s [] with hRdef
  have hrokR : rok R := by
    rcases Nat.lt_or_ge s K.length with h | h
    · exact (hmem R (hRdef ▸ getD_mem_of_lt K s h)).2
    · rw [hRdef, getD_eq_nil_of_ge K s h]
      intro hc
      simp at hc
  have hRne : s < K.length → R ≠ [] := by
    intro h
    exact (hmem R (hRdef ▸ getD_mem_of_lt K s h)).1
  have hbelow : below L R := by
    rcases Nat.lt_or_ge s K.length with h | h
    · right
      by_cases hs0 : s = 0
      · rw [hLdef]
        simp only [hs0, if_pos rfl]
        cases hR : R with
        | nil => exact absurd hR (hRne (hs0 ▸ h))
        | cons a t => exact List.Lex.nil
      · rw [hLdef, hRdef]
        simp only [hs0, if_neg hs0]
        rw [List.getD_eq_getElem K [] (by omega), List.getD_eq_getElem K [] h]
        have := List.pairwise_iff_get.mp hP ⟨s - 1, by omega⟩ ⟨s, h⟩ (by
          simp only [Fin.mk_lt_mk]
          omega)
        simpa [List.get_eq_getElem] using this
    · left
      rw [hRdef]
      exact getD_eq_nil_of_ge K s h
  obtain ⟨hchain, hNmem⟩ := mudderKeys_spec n L R hrokR hbelow
  have hpairsLN : List.Pairwise keyLt (L :: mudderKeys L R n) :=
    List.chain_iff_pairwise.mp hchain
  rw [List.pairwise_cons] at hpairsLN
  refine ⟨?_, fun k hk => ⟨(hNmem k hk).2.2.1, (hNmem k hk).2.1⟩⟩
  have hKdecomp : K.take s ++ K.drop s = K := List.take_append_drop s K
  have hcrossAD : ∀ x ∈ K.take s, ∀ z ∈ K.drop s, keyLt x z := by
    have := hKdecomp ▸ hP
    exact (List.pairwise_append.mp this).2.2
  have hxL : ∀ x ∈ K.take s, x = L ∨ keyLt x L := by
    intro x hx
    by_cases hs0 : s = 0
    · subst hs0
      simp at hx
    · have hs1 : 1 ≤ s := Nat.one_le_iff_ne_zero.mpr hs0
      have htake : K.take s = K.take (s - 1) ++ [L] := by
        rw [hLdef]
        simp only [if_neg hs0]
        have h2 : s = (s - 1) + 1 := by omega
        rw [h2, List.take_succ]
        simp only [Nat.add_sub_cancel]
        rw [List.getElem?_eq_getElem (l := K) (n := s - 1) (by omega)]
        rw [List.getD_eq_getElem K [] (by omega)]
        rfl
      rw [htake] at hx
      rcases List.mem_append.1 hx with h | h
      · right
        have hsub : List.Pairwise keyLt (K.take (s - 1) ++ [L]) := by
          rw [← htake]
          exact hP.sublist (List.take_sublist s K)
        exact (List.pairwise_append.mp hsub).2.2 x h L (by simp)
      · left
        simpa using h
  have hLN : ∀ y ∈ mudderKeys L R n, keyLt L y := hpairsLN.1
  rw [List.pairwise_append]
  refine ⟨hP.sublist (List.take_sublist s K), ?_, ?_⟩
  · rw [List.pairwise_append]
    refine ⟨hpairsLN.2, hP.sublist (List.drop_sublist s K), ?_⟩
    intro y hy z hz
    have hslen : s < K.length := by
      by_contra hc
      rw [List.drop_eq_nil_iff.mpr (by omega)] at hz
      cases hz
    have hdropcons : K.drop s = R :: K.drop (s + 1) := by
      rw [hRdef, List.getD_eq_getElem K [] hslen]
      exact List.drop_eq_getElem_cons hslen
    have hyR : keyLt y R := by
      rcases (hNmem y hy).1 with h | h
      · exact absurd h (hRne hslen)
      · exact h
    rw [hdropcons] at hz
    rcases List.mem_cons.1 hz with h | h
    · subst h
      exact hyR
    · have hpd : List.Pairwise keyLt (R :: K.drop (s + 1)) := by
        rw [← hdropcons]
        exact hP.sublist (List.drop_sublist s K)
      rw [List.pairwise_cons] at hpd
      exact keyLt_trans hyR (hpd.1 z h)
  · intro x hx z hz
    rcases List.mem_append.1 hz with h | h
    · rcases hxL x hx with h2 | h2
      · subst h2
        exact hLN z h
      · exact keyLt_trans h2 (hLN z h)
    · exact hcrossAD x hx z h

/-! ### addSentences in explicit take/drop form (nonnegative startIdx) -/

theorem jsSplice_nonneg (xs : List Sent) (s : Nat) (hs : s ≤ xs.length)
    (dc : Nat) (items : List Sent) :
    jsSplice xs (s : Int) dc items =
      (xs.take s ++ items ++ xs.drop (s + min dc (xs.length - s)),
       (xs.drop s).take (min dc (xs.length - s))) := by
  unfold jsSplice
  rw [jsNormStart_nonneg _ _ (by omega)]
  simp only [Int.toNat_natCast]
  rw [min_eq_left hs]

theorem jsSpliceK_nonneg (xs : List Key) (s : Nat) (hs : s ≤ xs.length)
    (dc : Nat) (items : List Key) :
    jsSplice xs (s : Int) dc items =
      (xs.take s ++ items ++ xs.drop (s + min dc (xs.length - s)),
       (xs.drop s).take (min dc (xs.length - s))) := by
  unfold jsSplice
  rw [jsNormStart_nonneg _ _ (by omega)]
  simp only [Int.toNat_natCast]
  rw [min_eq_left hs]

theorem addSentences_eq (db : DB) (st : StoryM) (startIdx : Int) (dc : Nat)
    (lines : List Line) (s d : Nat) (N : List Key)
    (hK : st.lexIdxs.length = st.sentences.length)
    (hs : (s : Int) = min startIdx (st.sentences.length : Int))
    (hsle : s ≤ st.sentences.length)
    (hd : d = min dc (st.sentences.length - s))
    (hN : N = mudderKeys (if s = 0 then [] else st.lexIdxs.getD (s - 1) [])
      (st.lexIdxs.getD s []) lines.length) :
    addSentences db st startIdx dc lines =
      { db := applyOps (resolveLoop st.id N db lines 0).1
          (delOps st.id ((st.sentences.drop s).take d) ((st.lexIdxs.drop s).take d)),
        story := ⟨st.id, st.title,
          st.sentences.take s ++ (resolveLoop st.id N db lines 0).2.1 ++
            st.sentences.drop (s + d),
          st.lexIdxs.take s ++ N ++ st.lexIdxs.drop (s + d)⟩,
        needingAudio := (resolveLoop st.id N db lines 0).2.2.1,
        newIdxs := N,
        ops := (resolveLoop st.id N db lines 0).2.2.2 ++
          delOps st.id ((st.sentences.drop s).take d) ((st.lexIdxs.drop s).take d) } := by
  unfold addSentences
  simp only []
  rw [← hs]
  rw [show (s : Int) - 1 = ((s : Nat) : Int) - 1 from rfl, idxOrEmpty_pred,
    idxOrEmpty_nonneg]
  rw [jsSplice_nonneg st.sentences s hsle, jsSpliceK_nonneg st.lexIdxs s (by omega)]
  rw [hK, ← hd, ← hN]

theorem zip_split (ss : List Sent) (K : List Key) (s : Nat)
    (h : K.length = ss.length) :
    (ss.map Sent.id).zip K =
      ((ss.take s).map Sent.id).zip (K.take s) ++
      ((ss.drop s).map Sent.id).zip (K.drop s) := by
  have h2 : ((ss.take s).map Sent.id).length = (K.take s).length := by
    simp [List.length_take, h]
  rw [← List.zip_append h2, ← List.map_append, List.take_append_drop,
    List.take_append_drop]

theorem zip_split3 (ss : List Sent) (K : List Key) (s d : Nat)
    (h : K.length = ss.length) :
    (ss.map Sent.id).zip K =
      ((ss.take s).map Sent.id).zip (K.take s) ++
      ((((ss.drop s).take d).map Sent.id).zip ((K.drop s).take d) ++
       ((ss.drop (s + d)).map Sent.id).zip (K.drop (s + d))) := by
  rw [zip_split ss K s h]
  congr 1
  have h2 : (K.drop s).length = (ss.drop s).length := by
    simp [List.length_drop, h]
  rw [zip_split (ss.drop s) (K.drop s) d h2]
  rw [List.drop_drop, List.drop_drop]

theorem perm_shuffle (a b c d : List (Nat × Key)) :
    ((a ++ (b ++ c)) ++ d).Perm (b ++ (a ++ (c ++ d))) := by
  rw [List.perm_iff_count]
  intro x
  simp only [List.count_append]
  omega

theorem perm_shuffle2 (a b c n : List Key) :
    (a ++ (n ++ (b ++ c))).Perm (b ++ (a ++ (c ++ n))) := by
  rw [List.perm_iff_count]
  intro x
  simp only [List.count_append]
  omega

theorem perm_clause (P : List (Nat × Key)) (ss : List Sent) (K : List Key)
    (new : List Sent) (N : List Key) (s d : Nat)
    (hKlen : K.length = ss.length)
    (hnN : new.length = N.length)
    (hperm : P.Perm ((ss.map Sent.id).zip K))
    (hnodupKeys : (K.take s ++ (N ++ K.drop s)).Nodup) :
    (((((ss.drop s).take d).map Sent.id).zip ((K.drop s).take d)).foldl
        (fun m b => m.filter fun p => decide (¬ p = b))
        (P ++ (new.map Sent.id).zip N)).Perm
      (((ss.take s ++ new ++ ss.drop (s + d)).map Sent.id).zip
        (K.take s ++ N ++ K.drop (s + d))) := by
  have hAlen : ((ss.take s).map Sent.id).length = (K.take s).length := by
    simp [List.length_take, hKlen]
  have hNzlen : (new.map Sent.id).length = N.length := by simp [hnN]
  have ht : (((ss.take s ++ new ++ ss.drop (s + d)).map Sent.id).zip
      (K.take s ++ N ++ K.drop (s + d))) =
      ((ss.take s).map Sent.id).zip (K.take s) ++
        ((new.map Sent.id).zip N ++
          ((ss.drop (s + d)).map Sent.id).zip (K.drop (s + d))) := by
    rw [List.append_assoc, List.append_assoc, List.map_append, List.map_append,
      List.zip_append hAlen, List.zip_append hNzlen]
  rw [ht]
  have hM : (P ++ (new.map Sent.id).zip N).Perm
      ((((ss.drop s).take d).map Sent.id).zip ((K.drop s).take d) ++
        (((ss.take s).map Sent.id).zip (K.take s) ++
          (((ss.drop (s + d)).map Sent.id).zip (K.drop (s + d)) ++
            (new.map Sent.id).zip N))) := by
    have h1 : P.Perm (((ss.take s).map Sent.id).zip (K.take s) ++
        ((((ss.drop s).take d).map Sent.id).zip ((K.drop s).take d) ++
          ((ss.drop (s + d)).map Sent.id).zip (K.drop (s + d)))) := by
      rw [← zip_split3 ss K s d hKlen]
      exact hperm
    exact (h1.append_right _).trans (perm_shuffle _ _ _ _)
  have hD : K.drop s = (K.drop s).take d ++ K.drop (s + d) := by
    rw [show K.drop (s + d) = (K.drop s).drop d from by
      rw [List.drop_drop, Nat.add_comm]]
    exact (List.take_append_drop d _).symm
  have hnodupKeys2 : (K.take s ++ (N ++ ((K.drop s).take d ++ K.drop (s + d)))).Nodup := by
    rw [← hD]
    exact hnodupKeys
  have hkeysN : ((K.drop s).take d ++ (K.take s ++ (K.drop (s + d) ++ N))).Nodup :=
    (perm_shuffle2 (K.take s) ((K.drop s).take d) (K.drop (s + d)) N).nodup hnodupKeys2
  have hsnd : ((((ss.drop s).take d).map Sent.id).zip ((K.drop s).take d) ++
      (((ss.take s).map Sent.id).zip (K.take s) ++
        (((ss.drop (s + d)).map Sent.id).zip (K.drop (s + d)) ++
          (new.map Sent.id).zip N))).map Prod.snd =
      (K.drop s).take d ++ (K.take s ++ (K.drop (s + d) ++ N)) := by
    simp only [List.map_append]
    rw [List.map_snd_zip _ _ (le_of_eq (by
        simp [List.length_take, List.length_drop, hKlen])),
      List.map_snd_zip _ _ (le_of_eq hAlen.symm),
      List.map_snd_zip _ _ (le_of_eq (by
        simp [List.length_drop, hKlen])),
      List.map_snd_zip _ _ (le_of_eq hNzlen.symm)]
  have hnd : ((((ss.drop s).take d).map Sent.id).zip ((K.drop s).take d) ++
      (((ss.take s).map Sent.id).zip (K.take s) ++
        (((ss.drop (s + d)).map Sent.id).zip (K.drop (s + d)) ++
          (new.map Sent.id).zip N))).Nodup :=
    List.Nodup.of_map Prod.snd (by rw [hsnd]; exact hkeysN)
  have hff := fold_filter_perm _ _ _ hM hnd
  exact hff.trans (List.Perm.append_left _ List.perm_append_comm)

theorem splice_inv_core (db : DB) (st : StoryM) (lines : List Line)
    (s d : Nat) (N : List Key)
    (hw : DbWf db) (hsI : StoryInv db st)
    (hsle : s ≤ st.sentences.length)
    (hN : N = mudderKeys (if s = 0 then [] else st.lexIdxs.getD (s - 1) [])
      (st.lexIdxs.getD s []) lines.length) :
    StoreInv (applyOps (resolveLoop st.id N db lines 0).1
        (delOps st.id ((st.sentences.drop s).take d) ((st.lexIdxs.drop s).take d)))
      ⟨st.id, st.title,
        st.sentences.take s ++ (resolveLoop st.id N db lines 0).2.1 ++
          st.sentences.drop (s + d),
        st.lexIdxs.take s ++ N ++ st.lexIdxs.drop (s + d)⟩ := by
  obtain ⟨⟨srow, hsrow, hsid, hstitle⟩, hlen, hP, hmem, hperm, hcontent⟩ := hsI
  obtain ⟨hmaster, hNmem⟩ := master_keys st.lexIdxs s lines.length
    (by omega) hP hmem
  rw [← hN] at hmaster hNmem
  have hnlen : (resolveLoop st.id N db lines 0).2.1.length = lines.length :=
    resolveLoop_sents_length st.id N lines db 0
  have hNlen : N.length = lines.length := by
    rw [hN]
    exact mudderKeys_length _ _ _
  obtain ⟨hst1, hst2, ⟨extra, hst3⟩, hst4⟩ := resolveLoop_state st.id N lines db 0
  have hwf1 : DbWf (resolveLoop st.id N db lines 0).1 :=
    resolveLoop_wf st.id N lines db 0 hw ⟨srow, hsrow, hsid⟩
  obtain ⟨hd1, hd2, hd3, hd4, hd5⟩ := applyOps_dels_other st.id
    ((st.sentences.drop s).take d) ((st.lexIdxs.drop s).take d)
    (resolveLoop st.id N db lines 0).1
  refine ⟨dels_wf _ _ _ _ hwf1, ⟨srow, ?_, hsid, hstitle⟩, ?_, ?_, ?_, ?_, ?_⟩
  · rw [hd2, hst1]
    exact hsrow
  · show (st.lexIdxs.take s ++ N ++ st.lexIdxs.drop (s + d)).length =
      (st.sentences.take s ++ (resolveLoop st.id N db lines 0).2.1 ++
        st.sentences.drop (s + d)).length
    simp only [List.length_append, List.length_take, List.length_drop, hlen,
      hnlen, hNlen]
  · show List.Pairwise keyLt (st.lexIdxs.take s ++ N ++ st.lexIdxs.drop (s + d))
    have hsub : (st.lexIdxs.take s ++ N ++ st.lexIdxs.drop (s + d)).Sublist
        (st.lexIdxs.take s ++ (N ++ st.lexIdxs.drop s)) := by
      rw [List.append_assoc]
      refine (List.Sublist.refl _).append ((List.Sublist.refl _).append ?_)
      rw [show st.lexIdxs.drop (s + d) = (st.lexIdxs.drop s).drop d from by
        rw [List.drop_drop, Nat.add_comm]]
      exact List.drop_sublist _ _
    exact List.Pairwise.sublist hsub hmaster
  · intro k hk
    rcases List.mem_append.1 hk with hk | hk
    · rcases List.mem_append.1 hk with hk | hk
      · exact hmem k (List.mem_of_mem_take hk)
      · exact hNmem k hk
    · exact hmem k (List.mem_of_mem_drop hk)
  · show (storyPairs (applyOps (resolveLoop st.id N db lines 0).1
        (delOps st.id ((st.sentences.drop s).take d)
          ((st.lexIdxs.drop s).take d))) st.id).Perm _
    rw [storyPairs_delOps st.id ((st.sentences.drop s).take d)
        ((st.lexIdxs.drop s).take d) (resolveLoop st.id N db lines 0).1
        (le_of_eq (by simp [List.length_take, List.length_drop, hlen])),
      storyPairs_after_loop st.id N lines db hNlen]
    exact perm_clause (storyPairs db st.id) st.sentences st.lexIdxs
      (resolveLoop st.id N db lines 0).2.1 N s d hlen
      (by rw [hnlen, hNlen]) hperm
      ((List.Pairwise.imp (fun h => keyLt_ne h)) hmaster)
  · intro x hx
    have hsentF : (applyOps (resolveLoop st.id N db lines 0).1
        (delOps st.id ((st.sentences.drop s).take d)
          ((st.lexIdxs.drop s).take d))).sentences = db.sentences ++ extra := by
      rw [hd1, hst3]
    rcases List.mem_append.1 hx with hx | hx
    · rcases List.mem_append.1 hx with hx | hx
      · obtain ⟨r, hr, h⟩ := hcontent x (List.mem_of_mem_take hx)
        exact ⟨r, by rw [hsentF]; exact List.mem_append_left _ hr, h⟩
      · obtain ⟨r, hr, h⟩ := resolveLoop_rows st.id N lines db 0 hw.2.2.2.1 x hx
        exact ⟨r, by rw [hd1]; exact hr, h⟩
    · obtain ⟨r, hr, h⟩ := hcontent x (List.mem_of_mem_drop hx)
      exact ⟨r, by rw [hsentF]; exact List.mem_append_left _ hr, h⟩

theorem splice_preserves (db : DB) (st : StoryM) (startIdx : Int) (dc : Nat)
    (lines : List Line) (hinv : StoreInv db st) (hpos : 0 ≤ startIdx) :
    StoreInv (addSentences db st startIdx dc lines).db
      (addSentences db st startIdx dc lines).story := by
  obtain ⟨hw, hsI⟩ := hinv
  have hKlen : st.lexIdxs.length = st.sentences.length := hsI.2.1
  have hsnn : 0 ≤ min startIdx (st.sentences.length : Int) :=
    le_min hpos (Int.natCast_nonneg _)
  have hs : (((min startIdx (st.sentences.length : Int)).toNat : Nat) : Int) =
      min startIdx (st.sentences.length : Int) := Int.toNat_of_nonneg hsnn
  have hsle : (min startIdx (st.sentences.length : Int)).toNat ≤
      st.sentences.length := by
    have h1 : min startIdx (st.sentences.length : Int) ≤
        (st.sentences.length : Int) := min_le_right _ _
    omega
  rw [addSentences_eq db st startIdx dc lines _ _ _ hKlen hs hsle rfl rfl]
  exact splice_inv_core db st lines _ _ _ hw hsI hsle rfl

/-! ### Reachable story states -/

theorem create_inv (db : DB) (title : String) (hw : DbWf db)
    (hf : findStory db title = none) :
    StoreInv
      { db with stories := db.stories ++ [⟨db.nextStoryId, title⟩],
                nextStoryId := db.nextStoryId + 1 }
      ⟨db.nextStoryId, title, [], []⟩ := by
  obtain ⟨w1, w2, w3, w4, w5, w6, w7⟩ := hw
  have hnew : ∀ r ∈ db.stories, r.title ≠ title := by
    intro r hr
    have := List.find?_eq_none.1 hf r hr
    simpa using this
  have hnolink : ∀ l ∈ db.links, l.storyId ≠ db.nextStoryId := by
    intro l hl
    obtain ⟨sr, hsr, hid⟩ := w7 l hl
    have := w5 sr hsr
    omega
  refine ⟨⟨w1, w2, w3, w4, ?_, ?_, ?_⟩, ?_, rfl, .nil, ?_, ?_, ?_⟩
  · intro r hr
    rcases List.mem_append.1 hr with h | h
    · have := w5 r h
      show r.id < db.nextStoryId + 1
      omega
    · simp only [List.mem_singleton] at h
      subst h
      show db.nextStoryId < db.nextStoryId + 1
      omega
  · rw [List.pairwise_append]
    refine ⟨w6, List.pairwise_singleton _ _, ?_⟩
    intro r hr r2 hr2
    simp only [List.mem_singleton] at hr2
    subst hr2
    exact hnew r hr
  · intro l hl
    obtain ⟨sr, hsr, hid⟩ := w7 l hl
    exact ⟨sr, List.mem_append_left _ hsr, hid⟩
  · exact ⟨⟨db.nextStoryId, title⟩, List.mem_append_right _ (by simp), rfl, rfl⟩
  · intro k hk
    cases hk
  · have hempty : storyPairs
        { db with stories := db.stories ++ [⟨db.nextStoryId, title⟩],
                  nextStoryId := db.nextStoryId + 1 } db.nextStoryId = [] := by
      unfold storyPairs storyLinks
      rw [List.filter_eq_nil_iff.2 (by
        intro l hl
        simpa using hnolink l hl)]
      rfl
    rw [hempty]
    exact List.Perm.refl _
  · intro x hx
    cases hx

theorem canon_inv (db : DB) (st : StoryM) (hinv : StoreInv db st) :
    StoreInv db ⟨st.id, st.title,
      st.sentences.map fun s => ⟨s.id, s.ja, sentenceToPlainJapanese s.ja, s.en⟩,
      st.lexIdxs⟩ := by
  obtain ⟨hw, ⟨srr, hsrr, hsid, hstitle⟩, hlen, hP, hmem, hperm, hcontent⟩ := hinv
  refine ⟨hw, ⟨srr, hsrr, hsid, hstitle⟩, ?_, hP, hmem, ?_, ?_⟩
  · show st.lexIdxs.length = (st.sentences.map _).length
    rw [List.length_map]
    exact hlen
  · show (storyPairs db st.id).Perm (((st.sentences.map _).map Sent.id).zip st.lexIdxs)
    rw [List.map_map]
    exact hperm
  · intro x hx
    rw [List.mem_map] at hx
    obtain ⟨s, hs, hxeq⟩ := hx
    subst hxeq
    obtain ⟨r, hr, h1, h2, h3, h4⟩ := hcontent s hs
    exact ⟨r, hr, h1, h2, h3, h4⟩

/-- The story states reachable through the public write path: creating a story
with a fresh title, re-reading an existing story by its title, and splicing
with a nonnegative start index. -/
inductive Reach : DB → StoryM → Prop where
  | create (db : DB) (title : String) (db2 : DB) (st : StoryM) :
      DbWf db → findStory db title = none →
      getOrCreateStory db title = some (db2, st) → Reach db2 st
  | reread (db : DB) (st : StoryM) (db2 : DB) (st2 : StoryM) :
      Reach db st → getOrCreateStory db st.title = some (db2, st2) →
      Reach db2 st2
  | splice (db : DB) (st : StoryM) (startIdx : Int) (dc : Nat)
      (lines : List Line) :
      Reach db st → 0 ≤ startIdx →
      Reach (addSentences db st startIdx dc lines).db
        (addSentences db st startIdx dc lines).story

theorem reach_inv (db : DB) (st : StoryM) (hr : Reach db st) :
    StoreInv db st := by
  induction hr with
  | create db0 title db2 st0 hw hf hget =>
    unfold getOrCreateStory at hget
    rw [hf] at hget
    simp only [Option.some.injEq, Prod.mk.injEq] at hget
    obtain ⟨hdb2, hst0⟩ := hget
    subst hdb2
    subst hst0
    exact create_inv db0 title hw hf
  | reread db0 st0 db2 st2 _ hget ih =>
    have hmr := materialize_read db0 st0 ih.1 ih.2
    rw [hmr] at hget
    simp only [Option.some.injEq, Prod.mk.injEq] at hget
    obtain ⟨hdb2, hst2⟩ := hget
    subst hdb2
    subst hst2
    exact canon_inv db0 st0 ih
  | splice db0 st0 startIdx dc lines _ hpos ih =>
    exact splice_preserves db0 st0 startIdx dc lines ih hpos

theorem addSentences_sent_mem (db : DB) (st : StoryM) (startIdx : Int)
    (dc : Nat) (lines : List Line) :
    ∀ x ∈ (addSentences db st startIdx dc lines).story.sentences,
      x ∈ st.sentences ∨ sentContent x ∈ lines.map lineContent := by
  intro x hx
  unfold addSentences jsSplice at hx
  simp only [] at hx
  rcases List.mem_append.1 hx with hx | hx
  · rcases List.mem_append.1 hx with hx | hx
    · exact Or.inl (List.mem_of_mem_take hx)
    · right
      rw [← resolveLoop_sents st.id _ lines db 0]
      exact List.mem_map_of_mem sentContent hx
  · exact Or.inl (List.mem_of_mem_drop hx)

theorem canon_map_id (l : List Sent)
    (h : ∀ x ∈ l, x.jaHint = sentenceToPlainJapanese x.ja) :
    (l.map fun s => (⟨s.id, s.ja, sentenceToPlainJapanese s.ja, s.en⟩ : Sent)) = l := by
  induction l with
  | nil => rfl
  | cons a t ih =>
    rw [List.map_cons, ih (fun x hx => h x (List.mem_cons_of_mem a hx))]
    congr 1
    have h1 := h a (List.mem_cons_self a t)
    cases a with
    | mk i ja hint en =>
      have h2 : hint = sentenceToPlainJapanese ja := h1
      rw [h2]

/-- The store and story produced by creating the story "S" on the empty
store. -/
def crDb : DB := ⟨[], [⟨1, "S"⟩], [], 1, 2, 1⟩

def crSt : StoryM := ⟨1, "S", [], []⟩

/-- C1 (amended): after any sequence of `getOrCreateStory` and `addSentences`
operations whose splice start indices are nonnegative, the story's ordering
keys are strictly increasing in key-space order, the key array matches the
sentence array position for position, and sorting the story's link rows by key
reproduces exactly the in-memory sentence order (the i-th sorted link carries
the i-th sentence's id and the i-th key).  Negative start indices break the
invariant (see the counterexample), so the claim's unrestricted "any sequence"
is amended to sequences of nonnegative-index splices. -/
theorem C1_ordering_invariant (db : DB) (st : StoryM) (hr : Reach db st) :
    List.Pairwise keyLt st.lexIdxs ∧
    st.lexIdxs.length = st.sentences.length ∧
    (sortLinks (storyLinks db st.id)).map linkPair =
      (st.sentences.map Sent.id).zip st.lexIdxs := by
  obtain ⟨hw, hsr, hlen, hP, hmem, hperm, hcontent⟩ := reach_inv db st hr
  exact ⟨hP, hlen, sorted_pairs_eq db st.id _ hperm (pairwise_zip_snd _ _ hP)⟩

/-- Witness for C1: a concrete reachable state (create the story "S" on the
empty store, then splice one line at position 0) satisfies the invariant. -/
theorem C1_ordering_invariant_witness :
    List.Pairwise keyLt (addSentences crDb crSt 0 0 [wLine "x"]).story.lexIdxs ∧
    (addSentences crDb crSt 0 0 [wLine "x"]).story.lexIdxs.length =
      (addSentences crDb crSt 0 0 [wLine "x"]).story.sentences.length ∧
    (sortLinks (storyLinks (addSentences crDb crSt 0 0 [wLine "x"]).db
        (addSentences crDb crSt 0 0 [wLine "x"]).story.id)).map linkPair =
      ((addSentences crDb crSt 0 0 [wLine "x"]).story.sentences.map Sent.id).zip
        (addSentences crDb crSt 0 0 [wLine "x"]).story.lexIdxs :=
  C1_ordering_invariant _ _
    (Reach.splice crDb crSt 0 0 [wLine "x"]
      (Reach.create emptyDB "S" crDb crSt (by decide) (by decide) (by decide))
      (by decide))

/-- C1 counterexample: the invariant does not survive an arbitrary sequence of
the two operations.  Create a story, splice two lines at position 0, then
splice two more lines with `startIdx = -2`: the negative index reads both key
bounds as empty strings while `Array.splice` inserts at the from-the-end
position, so the resulting key array is not strictly increasing. -/
theorem C1_counterexample :
    ¬ List.Pairwise keyLt
      (addSentences (addSentences crDb crSt 0 0 [wLine "a", wLine "b"]).db
        (addSentences crDb crSt 0 0 [wLine "a", wLine "b"]).story
        (-2) 0 [wLine "c", wLine "d"]).story.lexIdxs := by
  decide

/-- C6 (amended): splicing and then immediately materializing the story by its
title (the read path of `getOrCreateStory`) returns the same store unchanged
and exactly the spliced story, element for element — provided the splice start
index is nonnegative, the state is reachable, and every display hint (of the
supplied lines and of the story's current sentences) equals the plain-text
flattening of its word array.  Without the hint proviso the re-read replaces
each sentence's `jaHint` by the canonical flattening, and the claim's
element-for-element equality fails (see the counterexample). -/
theorem C6_splice_then_read (db : DB) (st : StoryM) (startIdx : Int) (dc : Nat)
    (lines : List Line) (hr : Reach db st) (hpos : 0 ≤ startIdx)
    (hlines : ∀ l ∈ lines, l.jaHint = sentenceToPlainJapanese l.ja)
    (hst : ∀ x ∈ st.sentences, x.jaHint = sentenceToPlainJapanese x.ja) :
    getOrCreateStory (addSentences db st startIdx dc lines).db
        (addSentences db st startIdx dc lines).story.title =
      some ((addSentences db st startIdx dc lines).db,
        (addSentences db st startIdx dc lines).story) := by
  have hinv := splice_preserves db st startIdx dc lines (reach_inv db st hr) hpos
  have hmr := materialize_read _ _ hinv.1 hinv.2
  have hcanon : ((addSentences db st startIdx dc lines).story.sentences.map
      fun s => (⟨s.id, s.ja, sentenceToPlainJapanese s.ja, s.en⟩ : Sent)) =
      (addSentences db st startIdx dc lines).story.sentences := by
    apply canon_map_id
    intro x hx
    rcases addSentences_sent_mem db st startIdx dc lines x hx with h | h
    · exact hst x h
    · rw [List.mem_map] at h
      obtain ⟨l, hl, he⟩ := h
      simp only [lineContent, sentContent, Prod.mk.injEq] at he
      obtain ⟨hja, hhint, hen⟩ := he
      rw [← hhint, ← hja]
      exact hlines l hl
  rw [hcanon] at hmr
  exact hmr

/-- Witness for C6: at the concrete reachable state (story "S" created on the
empty store), splicing one line with canonical hint at position 0 and re-reading
the story by title reproduces the spliced story exactly. -/
theorem C6_splice_then_read_witness :
    getOrCreateStory (addSentences crDb crSt 0 0 [wLine "x"]).db
        (addSentences crDb crSt 0 0 [wLine "x"]).story.title =
      some ((addSentences crDb crSt 0 0 [wLine "x"]).db,
        (addSentences crDb crSt 0 0 [wLine "x"]).story) :=
  C6_splice_then_read crDb crSt 0 0 [wLine "x"]
    (Reach.create emptyDB "S" crDb crSt (by decide) (by decide) (by decide))
    (by decide) (by decide) (by decide)

/-- C6 counterexample: splice one line whose `jaHint` ("w") differs from the
plain-text flattening of its word array ("lol") — the shape of the repository's
own test data.  The in-memory story keeps the caller's hint while the store
keeps the canonical flattening, so the immediate re-read does not reproduce the
spliced story element for element. -/
theorem C6_counterexample :
    getOrCreateStory
        (addSentences crDb crSt 0 0 [⟨[Word.plain "lol"], "w", "lol"⟩]).db
        (addSentences crDb crSt 0 0 [⟨[Word.plain "lol"], "w", "lol"⟩]).story.title ≠
      some ((addSentences crDb crSt 0 0 [⟨[Word.plain "lol"], "w", "lol"⟩]).db,
        (addSentences crDb crSt 0 0 [⟨[Word.plain "lol"], "w", "lol"⟩]).story) := by
  decide
